import Mathlib

set_option maxHeartbeats 1000000
set_option autoImplicit false

/-!
# Verification of the configuration core (`options.py`, `search.py`)

Shallow embedding conventions:
* Python strings are modeled as lists of characters (`Key := List Char`).
* Python dicts are modeled as insertion-ordered association lists (`Dct`);
  assignment `d[k] = v` updates the value in place when the key is present
  and appends otherwise, exactly like CPython dicts.
* `Opt` (an `argparse.Namespace`) is modeled by `ODct`, the ordered map of
  its `__dict__`; attribute values are either nested namespaces (`OVal.node`)
  or plain Python values (`OVal.leaf`).
* Python values are modeled by `Val`: booleans, ints, floats (as rationals),
  strings, `None`, `pathlib.Path` values (carrying their textual form),
  other opaque objects (carrying their `str()` display), lists, tuples and
  dicts.  No operation of the translated code ever recurses into list or
  tuple elements, so those are carried verbatim.
* Fallible code returns `Except (Exn ε) _`; `ε` is the type of failures an
  external sampler may raise, which the code never inspects.
-/

abbrev Key := List Char

/-- Helper to write keys with string literal syntax. -/
def kOf (s : String) : Key := s.data

/-- Python `key.rstrip("_")`: remove every trailing underscore. -/
def rstripU (k : Key) : Key := (k.reverse.dropWhile (fun c => c = '_')).reverse

/-- Python `key.endswith("_")`. -/
def endsU (k : Key) : Bool :=
  match k.reverse with
  | [] => false
  | c :: _ => c = '_'

/-- Python `"." in key`. -/
def hasDot (k : Key) : Bool := k.contains '.'

mutual
/-- A Python value as far as the translated code can observe it. -/
inductive Val : Type where
  | vbool : Bool → Val
  | vint : Int → Val
  | vfloat : ℚ → Val
  | vstr : Key → Val
  | vnone : Val
  | vpath : Key → Val
  | vobj : Key → Val
  | vlist : VList → Val
  | vtup : VList → Val
  | vdict : Dct → Val

/-- A list of Python values (contents of a `list` or `tuple`). -/
inductive VList : Type where
  | nil : VList
  | cons : Val → VList → VList

/-- An insertion-ordered Python dict with string keys. -/
inductive Dct : Type where
  | nil : Dct
  | cons : Key → Val → Dct → Dct
end

deriving instance DecidableEq for Val
deriving instance DecidableEq for VList
deriving instance DecidableEq for Dct

mutual
/-- A value stored in an `Opt.__dict__`: a nested `Opt` or a plain value. -/
inductive OVal : Type where
  | node : ODct → OVal
  | leaf : Val → OVal

/-- The ordered `__dict__` of an `Opt` namespace. -/
inductive ODct : Type where
  | nil : ODct
  | cons : Key → OVal → ODct → ODct
end

deriving instance DecidableEq for OVal
deriving instance DecidableEq for ODct

/-! ## Induction principles

The mutual inductives above do not work with the `induction` tactic directly,
so we derive the recursion schemes we need by strong induction on `sizeOf`. -/

theorem dctIndT (P : Dct → Prop) (hnil : P .nil)
    (hcons : ∀ k v rest, P rest → P (.cons k v rest)) : ∀ d, P d := by
  have key : ∀ (n : Nat) (d : Dct), sizeOf d ≤ n → P d := by
    intro n
    induction n with
    | zero =>
      intro d hd
      cases d with
      | nil => exact hnil
      | cons k v rest => simp [Dct.cons.sizeOf_spec] at hd
    | succ n ih =>
      intro d hd
      cases d with
      | nil => exact hnil
      | cons k v rest =>
        refine hcons _ _ _ (ih rest ?_)
        have h1 : sizeOf (Dct.cons k v rest) = 1 + sizeOf k + sizeOf v + sizeOf rest :=
          Dct.cons.sizeOf_spec k v rest
        have h2 : 0 < sizeOf v := by cases v <;> simp_arith
        omega
  exact fun d => key (sizeOf d) d le_rfl

/-- Induction on a `Dct`, descending both into the tail and into nested dict
values (the recursion scheme of the functions translated below). -/
theorem dctInd (P : Dct → Prop) (hnil : P .nil)
    (hcons : ∀ k v rest, (∀ g, v = Val.vdict g → P g) → P rest → P (.cons k v rest)) :
    ∀ d, P d := by
  have key : ∀ (n : Nat) (d : Dct), sizeOf d ≤ n → P d := by
    intro n
    induction n with
    | zero =>
      intro d hd
      cases d with
      | nil => exact hnil
      | cons k v rest => simp [Dct.cons.sizeOf_spec] at hd
    | succ n ih =>
      intro d hd
      cases d with
      | nil => exact hnil
      | cons k v rest =>
        have h1 : sizeOf (Dct.cons k v rest) = 1 + sizeOf k + sizeOf v + sizeOf rest :=
          Dct.cons.sizeOf_spec k v rest
        refine hcons _ _ _ (fun g hg => ih g ?_) (ih rest ?_)
        · subst hg
          have h3 : sizeOf (Val.vdict g) = 1 + sizeOf g := Val.vdict.sizeOf_spec g
          omega
        · have h2 : 0 < sizeOf v := by cases v <;> simp_arith
          omega
  exact fun d => key (sizeOf d) d le_rfl

theorem odctIndT (P : ODct → Prop) (hnil : P .nil)
    (hcons : ∀ k v rest, P rest → P (.cons k v rest)) : ∀ o, P o := by
  have key : ∀ (n : Nat) (o : ODct), sizeOf o ≤ n → P o := by
    intro n
    induction n with
    | zero =>
      intro o ho
      cases o with
      | nil => exact hnil
      | cons k v rest => simp [ODct.cons.sizeOf_spec] at ho
    | succ n ih =>
      intro o ho
      cases o with
      | nil => exact hnil
      | cons k v rest =>
        refine hcons _ _ _ (ih rest ?_)
        have h1 : sizeOf (ODct.cons k v rest) = 1 + sizeOf k + sizeOf v + sizeOf rest :=
          ODct.cons.sizeOf_spec k v rest
        have h2 : 0 < sizeOf v := by cases v <;> simp_arith
        omega
  exact fun o => key (sizeOf o) o le_rfl

/-- Induction on an `ODct`, descending into the tail and into nested nodes. -/
theorem odctInd (P : ODct → Prop) (hnil : P .nil)
    (hcons : ∀ k v rest, (∀ g, v = OVal.node g → P g) → P rest → P (.cons k v rest)) :
    ∀ o, P o := by
  have key : ∀ (n : Nat) (o : ODct), sizeOf o ≤ n → P o := by
    intro n
    induction n with
    | zero =>
      intro o ho
      cases o with
      | nil => exact hnil
      | cons k v rest => simp [ODct.cons.sizeOf_spec] at ho
    | succ n ih =>
      intro o ho
      cases o with
      | nil => exact hnil
      | cons k v rest =>
        have h1 : sizeOf (ODct.cons k v rest) = 1 + sizeOf k + sizeOf v + sizeOf rest :=
          ODct.cons.sizeOf_spec k v rest
        refine hcons _ _ _ (fun g hg => ih g ?_) (ih rest ?_)
        · subst hg
          have h3 : sizeOf (OVal.node g) = 1 + sizeOf g := OVal.node.sizeOf_spec g
          omega
        · have h2 : 0 < sizeOf v := by cases v <;> simp_arith
          omega
  exact fun o => key (sizeOf o) o le_rfl

/-! ## Ordered-dict primitives -/

/-- Lookup: `d[k]` / `d.get(k)`. -/
def dget : Dct → Key → Option Val
  | .nil, _ => none
  | .cons k v rest, q => if q = k then some v else dget rest q

/-- `d.get(k, dflt)`. -/
def dgetD (d : Dct) (q : Key) (dflt : Val) : Val := (dget d q).getD dflt

/-- Membership test `k in d`. -/
def dmem (d : Dct) (q : Key) : Bool := (dget d q).isSome

/-- Assignment `d[k] = v`: replace in place if present, else append. -/
def dset : Dct → Key → Val → Dct
  | .nil, q, x => .cons q x .nil
  | .cons k v rest, q, x => if q = k then .cons k x rest else .cons k v (dset rest q x)

/-- `d.pop(k)` (the mapping, ignoring the returned value). -/
def dpop : Dct → Key → Dct
  | .nil, _ => .nil
  | .cons k v rest, q => if q = k then rest else .cons k v (dpop rest q)

/-- The ordered key list of a dict. -/
def dkeys : Dct → List Key
  | .nil => []
  | .cons k _ rest => k :: dkeys rest

/-- Concatenation of entry lists (a proof-side helper, not a Python operation). -/
def dappend : Dct → Dct → Dct
  | .nil, e => e
  | .cons k v rest, e => .cons k v (dappend rest e)

/-- `d.update(u)`: assign every entry of `u` into `d`, in order. -/
def dupdate : Dct → Dct → Dct
  | d, .nil => d
  | d, .cons k v rest => dupdate (dset d k v) rest

/-- Lookup in a namespace `__dict__` (`getattr`). -/
def oget : ODct → Key → Option OVal
  | .nil, _ => none
  | .cons k v rest, q => if q = k then some v else oget rest q

/-- `setattr`: replace in place if present, else append. -/
def oset : ODct → Key → OVal → ODct
  | .nil, q, x => .cons q x .nil
  | .cons k v rest, q, x => if q = k then .cons k x rest else .cons k v (oset rest q x)

def omem (o : ODct) (q : Key) : Bool := (oget o q).isSome

def okeys : ODct → List Key
  | .nil => []
  | .cons k _ rest => k :: okeys rest

def oappend : ODct → ODct → ODct
  | .nil, e => e
  | .cons k v rest, e => .cons k v (oappend rest e)

/-! ## Basic lemmas about the primitives -/

@[simp] theorem dget_nil (q : Key) : dget .nil q = none := rfl

theorem dget_cons (k : Key) (v : Val) (rest : Dct) (q : Key) :
    dget (.cons k v rest) q = if q = k then some v else dget rest q := rfl

@[simp] theorem dget_cons_self (k : Key) (v : Val) (rest : Dct) :
    dget (.cons k v rest) k = some v := by simp [dget]

theorem dget_cons_ne (k : Key) (v : Val) (rest : Dct) (q : Key) (h : q ≠ k) :
    dget (.cons k v rest) q = dget rest q := by simp [dget, h]

@[simp] theorem dget_dset_self (d : Dct) (k : Key) (x : Val) :
    dget (dset d k x) k = some x := by
  induction d using dctIndT with
  | hnil => simp [dset]
  | hcons k' v' rest ih =>
    by_cases h : k = k'
    · subst h; simp [dset]
    · simp [dset, h, dget_cons_ne _ _ _ _ h, ih]

theorem dget_dset_ne (d : Dct) (k q : Key) (x : Val) (h : q ≠ k) :
    dget (dset d k x) q = dget d q := by
  induction d using dctIndT with
  | hnil => simp [dset, dget, h]
  | hcons k' v' rest ih =>
    by_cases h' : k = k'
    · subst h'; simp [dset, dget, h]
    · simp only [dset, if_neg h']
      by_cases h'' : q = k'
      · subst h''; simp [dget]
      · simp [dget_cons_ne _ _ _ _ h'', ih]

theorem dget_dappend (d e : Dct) (q : Key) :
    dget (dappend d e) q = ((dget d q).orElse (fun _ => dget e q)) := by
  induction d using dctIndT with
  | hnil => simp [dappend]
  | hcons k v rest ih =>
    by_cases h : q = k
    · subst h; simp [dappend, dget]
    · simp [dappend, dget_cons_ne _ _ _ _ h, ih]

theorem dget_dappend_left (d e : Dct) (q : Key) (h : dmem d q = true) :
    dget (dappend d e) q = dget d q := by
  rw [dget_dappend]
  unfold dmem at h
  cases hd : dget d q with
  | none => rw [hd] at h; simp at h
  | some v => simp [Option.orElse]

theorem dget_dappend_right (d e : Dct) (q : Key) (h : dmem d q = false) :
    dget (dappend d e) q = dget e q := by
  rw [dget_dappend]
  unfold dmem at h
  cases hd : dget d q with
  | none => simp [Option.orElse]
  | some v => rw [hd] at h; simp at h

@[simp] theorem dappend_nil (d : Dct) : dappend d .nil = d := by
  induction d using dctIndT with
  | hnil => rfl
  | hcons k v rest ih => simp [dappend, ih]

theorem dappend_assoc (a b c : Dct) :
    dappend (dappend a b) c = dappend a (dappend b c) := by
  induction a using dctIndT with
  | hnil => rfl
  | hcons k v rest ih => simp [dappend, ih]

theorem dkeys_dappend (a b : Dct) : dkeys (dappend a b) = dkeys a ++ dkeys b := by
  induction a using dctIndT with
  | hnil => simp [dappend, dkeys]
  | hcons k v rest ih => simp [dappend, dkeys, ih]

theorem dmem_iff_keys (d : Dct) (q : Key) : dmem d q = true ↔ q ∈ dkeys d := by
  induction d using dctIndT with
  | hnil => simp [dmem, dget, dkeys]
  | hcons k v rest ih =>
    by_cases h : q = k
    · subst h; simp [dmem, dget, dkeys]
    · simp [dmem, dget_cons_ne _ _ _ _ h, dkeys, h]
      exact ih

theorem dmem_false_iff (d : Dct) (q : Key) : dmem d q = false ↔ ¬ q ∈ dkeys d := by
  rw [← dmem_iff_keys]
  cases dmem d q <;> simp

/-- Assignment to an absent key appends the entry. -/
theorem dset_fresh (d : Dct) (q : Key) (x : Val) (h : dmem d q = false) :
    dset d q x = dappend d (.cons q x .nil) := by
  induction d using dctIndT with
  | hnil => rfl
  | hcons k v rest ih =>
    unfold dmem at h
    by_cases h' : q = k
    · subst h'; simp [dget] at h
    · rw [dget_cons_ne _ _ _ _ h'] at h
      simp [dset, h', dappend, ih h]

theorem dkeys_dset_mem (d : Dct) (q : Key) (x : Val) (h : dmem d q = true) :
    dkeys (dset d q x) = dkeys d := by
  induction d using dctIndT with
  | hnil => simp [dmem, dget] at h
  | hcons k v rest ih =>
    by_cases h' : q = k
    · subst h'; simp [dset, dkeys]
    · unfold dmem at h
      rw [dget_cons_ne _ _ _ _ h'] at h
      simp [dset, h', dkeys, ih h]

theorem dkeys_dset (d : Dct) (q : Key) (x : Val) :
    dkeys (dset d q x) = if dmem d q then dkeys d else dkeys d ++ [q] := by
  by_cases h : dmem d q
  · simp [h, dkeys_dset_mem _ _ _ h]
  · simp only [Bool.not_eq_true] at h
    simp [h, dset_fresh _ _ _ h, dkeys_dappend, dkeys]

/-- Popping a key just appended at the end of a dict not containing it. -/
theorem dpop_append_last (d : Dct) (q : Key) (x : Val) (h : dmem d q = false) :
    dpop (dappend d (.cons q x .nil)) q = d := by
  induction d using dctIndT with
  | hnil => simp [dappend, dpop]
  | hcons k v rest ih =>
    unfold dmem at h
    by_cases h' : q = k
    · subst h'; simp [dget] at h
    · rw [dget_cons_ne _ _ _ _ h'] at h
      have h'' : ¬ (q = k) := h'
      simp [dappend, dpop, h'', ih h]

/-! ## Translated source functions (`src/options.py`) -/

def isVDict : Val → Bool
  | .vdict _ => true
  | _ => false

mutual
/-- The loop body of `Opt.from_dict`: fold `setattr` over the input entries.
When the value is a dict and the key does not end in `_`, a nested namespace
is built; otherwise the value is stored verbatim under both the stripped and
the original name. -/
def from_dictGo : Dct → ODct → ODct
  | .nil, lopt => lopt
  | .cons key value rest, lopt =>
    if isVDict value && !(endsU key) then
      from_dictGo rest (oset lopt (rstripU key) (.node (from_dictV value)))
    else
      from_dictGo rest (oset (oset lopt (rstripU key) (.leaf value)) key (.leaf value))

/-- The recursive call `Opt.from_dict(value)`; only reached on dict values. -/
def from_dictV : Val → ODct
  | .vdict g => from_dictGo g .nil
  | _ => .nil
end

/-- `Opt.from_dict`. -/
def from_dictD (d : Dct) : ODct := from_dictGo d .nil

mutual
/-- The loop body of `Opt.to_dict`: key `a` is evicted when `a_` arrives. -/
def to_dictGo : ODct → Dct → Dct
  | .nil, dct => dct
  | .cons key value rest, dct =>
    let skey := rstripU key
    let dct1 := if dmem dct skey then dpop dct skey else dct
    to_dictGo rest (dset dct1 key (to_dictV value))

/-- Conversion of a single attribute value inside `Opt.to_dict`: namespaces
recurse, anything else is copied as-is. -/
def to_dictV : OVal → Val
  | .node g => .vdict (to_dictGo g .nil)
  | .leaf x => x
end

/-- `Opt.to_dict`. -/
def to_dict (o : ODct) : Dct := to_dictGo o .nil

/-- `f"{prev_key}.{key}" if prev_key is not None else key`. -/
def joinPre : Option Key → Key → Key
  | none, k => k
  | some p, k => p ++ '.' :: k

mutual
/-- The loop body of `Opt._flatten_dict`. -/
def flatten_go : Dct → Option Key → Dct → Dct
  | .nil, _, flat => flat
  | .cons key value rest, pre, flat =>
    let nk := joinPre pre key
    if isVDict value then
      flatten_go rest pre (dupdate flat (flatten_val value nk))
    else
      flatten_go rest pre (dset flat nk value)

/-- The recursive call `Opt._flatten_dict(value, prev_key=new_key)`;
only reached on dict values. -/
def flatten_val : Val → Key → Dct
  | .vdict g, nk => flatten_go g (some nk) .nil
  | _, _ => .nil
end

/-- `Opt._flatten_dict`. -/
def flatten_dict (d : Dct) (pre : Option Key) : Dct := flatten_go d pre .nil

/-- `Opt.to_flat_dict`. -/
def to_flat_dict (o : ODct) : Dct := flatten_dict (to_dict o) none

/-- Python `key.split(".")` (every occurrence, empty pieces kept). -/
def splitDot : Key → List Key
  | [] => [[]]
  | c :: cs =>
    if c = '.' then [] :: splitDot cs
    else
      match splitDot cs with
      | s :: ss => (c :: s) :: ss
      | [] => [[c]]   -- unreachable: splitDot never returns []

/-- `Opt._expand_from_keys`: `[a, b, c] ↦ {a: {b: {c: value}}}`. -/
def expand_from_keys : List Key → Val → Dct
  | [], _ => .nil
  | [k], v => .cons k v .nil
  | k :: ks, v => .cons k (.vdict (expand_from_keys ks v)) .nil

/-- The exceptions surfacing from the translated code.  `ε` is the type of
failures the external sampler can raise; the code never looks inside it. -/
inductive Exn (ε : Type) : Type where
  | attrError : Exn ε
  | typeError : Exn ε
  | valueError : Val → Exn ε
  | unpackError : Exn ε
  | ext : ε → Exn ε
deriving DecidableEq

deriving instance DecidableEq for Except

mutual
/-- `Opt._recursive_update(d, u)`.  The first argument is an arbitrary value
because the function calls itself on `d.get(k, {})`, which need not be a
dict; in that case the first subsequent access raises (`AttributeError` for
`d.get`, `TypeError` for `d[k] = v`). -/
def recursive_update {ε : Type} : Val → Dct → Except (Exn ε) Val
  | d, .nil => .ok d
  | d, .cons k v rest =>
    if isVDict v then
      match d with
      | .vdict dd =>
        match recUpdInner (dgetD dd k (.vdict .nil)) v with
        | .ok inner => recursive_update (.vdict (dset dd k inner)) rest
        | .error e => .error e
      | _ => .error .attrError
    else
      match d with
      | .vdict dd => recursive_update (.vdict (dset dd k v)) rest
      | _ => .error .typeError

/-- The recursive call `Opt._recursive_update(d.get(k, {}), v)`;
only reached on dict values `v`. -/
def recUpdInner {ε : Type} : Val → Val → Except (Exn ε) Val
  | d, .vdict u => recursive_update d u
  | d, _ => .ok d
end

/-- `Opt._recursive_update` at the call sites where both arguments are
dicts and the result is used as a dict. -/
def recursive_updateD {ε : Type} (d u : Dct) : Except (Exn ε) Dct :=
  match recursive_update (Val.vdict d) u with
  | .ok (.vdict r) => .ok r
  | .ok _ => .error .typeError   -- unreachable: updating a dict yields a dict
  | .error e => .error e

/-- The loop of `Opt.from_flat_dict` building `exp_dict`. -/
def from_flat_go {ε : Type} : Dct → Dct → Except (Exn ε) Dct
  | .nil, exp => .ok exp
  | .cons key value rest, exp =>
    if hasDot key then
      match splitDot key with
      | [] => .error .attrError   -- unreachable: splitDot never returns []
      | key_ :: keys =>
        match dget exp key_ with
        | none => from_flat_go rest (dset exp key_ (.vdict (expand_from_keys keys value)))
        | some cur =>
          match recursive_update cur (expand_from_keys keys value) with
          | .ok merged => from_flat_go rest (dset exp key_ merged)
          | .error e => .error e
    else
      from_flat_go rest (dset exp key value)

/-- `Opt.from_flat_dict`. -/
def from_flat_dict {ε : Type} (flat : Dct) : Except (Exn ε) ODct :=
  match from_flat_go (ε := ε) flat .nil with
  | .ok exp => .ok (from_dictD exp)
  | .error e => .error e

/-- Python `str(v)` for the value kinds `Opt.sanitize_dict` stringifies
(`None`, paths and other opaque objects carry their display string). -/
def displayStr : Val → Key
  | .vnone => kOf "None"
  | .vpath p => p
  | .vobj s => s
  | _ => []

/-- `isinstance(v, (bool, int, float, str, list, tuple, dict))`. -/
def isPrim : Val → Bool
  | .vbool _ => true
  | .vint _ => true
  | .vfloat _ => true
  | .vstr _ => true
  | .vlist _ => true
  | .vtup _ => true
  | .vdict _ => true
  | _ => false

mutual
/-- `Opt.sanitize_dict`. -/
def sanitize_dict : Dct → Dct
  | .nil => .nil
  | .cons k v rest =>
    if isVDict v then
      .cons k (sanitize_val v) (sanitize_dict rest)
    else if !(isPrim v) then
      .cons k (.vstr (displayStr v)) (sanitize_dict rest)
    else
      .cons k v (sanitize_dict rest)

/-- The recursive call `Opt.sanitize_dict(v)`; only reached on dict values. -/
def sanitize_val : Val → Val
  | .vdict g => .vdict (sanitize_dict g)
  | v => v
end

/-! ## Translated source functions (`src/search.py`) -/

/-- A single query to the external sampler: one of the `trial.suggest_*`
calls, carrying the sample name (the flat dot-path) and the spec arguments
exactly as the code passes them. -/
inductive SCall : Type where
  | sInt : Key → Val → Val → Val → Val → SCall
  | sFloat : Key → Val → Val → Val → Val → SCall
  | sCat : Key → Val → SCall
deriving DecidableEq

/-- The sample name passed to the sampler. -/
def callName : SCall → Key
  | .sInt n _ _ _ _ => n
  | .sFloat n _ _ _ _ => n
  | .sCat n _ => n

/-- The slice of an optuna `Trial` that `suggest_config` uses: the three
`suggest_*` methods (routed through one `sample` function) and `number`.
`ε` is whatever failure the provider may raise (e.g. a prune signal). -/
structure Trial (ε : Type) where
  sample : SCall → Except ε Val
  number : Nat

/-- Destructuring `kind, args = v`.  Python would unpack any 2-element
iterable; tune specs are tuples or lists, which is what we model — other
iterables are treated as unpack failures. -/
def unpack2 : Val → Option (Val × Val)
  | .vtup (.cons a (.cons b .nil)) => some (a, b)
  | .vlist (.cons a (.cons b .nil)) => some (a, b)
  | _ => none

/-- Destructuring `low, high, step, log = args` (4-element tuple or list). -/
def unpack4 : Val → Option (Val × Val × Val × Val)
  | .vtup (.cons a (.cons b (.cons c (.cons d .nil)))) => some (a, b, c, d)
  | .vlist (.cons a (.cons b (.cons c (.cons d .nil)))) => some (a, b, c, d)
  | _ => none

/-- The `for k, v in flat_tune.items()` loop of `suggest_config`, building
`candidate`.  Besides the loop state the translation records the list of
sampler invocations, in order, so that the call protocol can be stated. -/
def suggestLoop {ε : Type} (t : Trial ε) :
    Dct → Dct → List SCall → List SCall × Except (Exn ε) Dct
  | .nil, candidate, calls => (calls, .ok candidate)
  | .cons k v rest, candidate, calls =>
    match unpack2 v with
    | none => (calls, .error .unpackError)
    | some (kind, args) =>
      if kind = .vstr (kOf "int") then
        match unpack4 args with
        | none => (calls, .error .unpackError)
        | some (low, high, step, log) =>
          let c := SCall.sInt k low high step log
          match t.sample c with
          | .ok w => suggestLoop t rest (dset candidate k w) (calls ++ [c])
          | .error e => (calls ++ [c], .error (.ext e))
      else if kind = .vstr (kOf "float") then
        match unpack4 args with
        | none => (calls, .error .unpackError)
        | some (low, high, step, log) =>
          let c := SCall.sFloat k low high step log
          match t.sample c with
          | .ok w => suggestLoop t rest (dset candidate k w) (calls ++ [c])
          | .error e => (calls ++ [c], .error (.ext e))
      else if kind = .vstr (kOf "categorical") then
        let c := SCall.sCat k args
        match t.sample c with
        | .ok w => suggestLoop t rest (dset candidate k w) (calls ++ [c])
        | .error e => (calls ++ [c], .error (.ext e))
      else
        (calls, .error (.valueError kind))

/-- `suggest_config` up to and including line 73 (`trial_opt = ...`):
flatten both configs, sample every tune leaf, merge the candidate over the
flat base, re-expand.  The first component is the sampler call trace. -/
def suggest_core {ε : Type} (t : Trial ε) (base_hp tune_hp : ODct) :
    List SCall × Except (Exn ε) ODct :=
  let flat_base := to_flat_dict base_hp
  let flat_tune := to_flat_dict tune_hp
  match suggestLoop t flat_tune .nil [] with
  | (calls, .error e) => (calls, .error e)
  | (calls, .ok candidate) =>
    match recursive_updateD flat_base candidate with
    | .error e => (calls, .error e)
    | .ok merged => (calls, from_flat_dict merged)

/-- `f"trial_{trial.number:04d}"`. -/
def trialDirName (n : Nat) : Key :=
  let digits := Nat.toDigits 10 n
  kOf "trial_" ++ (List.replicate (4 - digits.length) '0' ++ digits)

def outDirKey : Key := kOf "out_dir"

/-- All of `suggest_config`, including line 75
(`trial_opt.out_dir = trial_opt.out_dir / f"trial_{trial.number:04d}"`):
reading a missing `out_dir` raises `AttributeError`, and `/` on a value
that is not a `Path` raises `TypeError`. -/
def suggest_config {ε : Type} (t : Trial ε) (base_hp tune_hp : ODct) :
    List SCall × Except (Exn ε) ODct :=
  match suggest_core t base_hp tune_hp with
  | (calls, .error e) => (calls, .error e)
  | (calls, .ok trial_opt) =>
    match oget trial_opt outDirKey with
    | some (.leaf (.vpath p)) =>
      (calls, .ok (oset trial_opt outDirKey
        (.leaf (.vpath (p ++ '/' :: trialDirName t.number)))))
    | some _ => (calls, .error .typeError)
    | none => (calls, .error .attrError)

/-! ## Lemmas about keys -/

theorem endsU_rstripU (k : Key) : endsU (rstripU k) = false := by
  unfold endsU rstripU
  rw [List.reverse_reverse]
  generalize k.reverse = l
  induction l with
  | nil => simp [List.dropWhile]
  | cons c l ih =>
    by_cases h : c = '_'
    · simpa [List.dropWhile, h] using ih
    · simp [List.dropWhile, h]

theorem rstripU_of_endsU_false (k : Key) (h : endsU k = false) : rstripU k = k := by
  unfold endsU at h
  unfold rstripU
  cases hr : k.reverse with
  | nil =>
    have : k = [] := by
      have := congrArg List.reverse hr
      simpa using this
    simp [this, List.dropWhile]
  | cons c l =>
    rw [hr] at h
    simp only [decide_eq_false_iff_not] at h
    have h2 : List.dropWhile (fun c => decide (c = '_')) (c :: l) = c :: l := by
      simp [List.dropWhile, h]
    rw [h2, ← hr, List.reverse_reverse]

theorem rstripU_idem (k : Key) : rstripU (rstripU k) = rstripU k :=
  rstripU_of_endsU_false _ (endsU_rstripU k)

theorem rstripU_ne_of_endsU (k : Key) (h : endsU k = true) : rstripU k ≠ k := by
  intro he
  have := endsU_rstripU k
  rw [he] at this
  rw [this] at h
  exact Bool.false_ne_true h

/-! ## Lemmas about namespace dicts -/

@[simp] theorem oget_nil (q : Key) : oget .nil q = none := rfl

@[simp] theorem oget_cons_self (k : Key) (v : OVal) (rest : ODct) :
    oget (.cons k v rest) k = some v := by simp [oget]

theorem oget_cons_ne (k : Key) (v : OVal) (rest : ODct) (q : Key) (h : q ≠ k) :
    oget (.cons k v rest) q = oget rest q := by simp [oget, h]

@[simp] theorem oappend_nil (o : ODct) : oappend o .nil = o := by
  induction o using odctIndT with
  | hnil => rfl
  | hcons k v rest ih => simp [oappend, ih]

theorem oappend_assoc (a b c : ODct) :
    oappend (oappend a b) c = oappend a (oappend b c) := by
  induction a using odctIndT with
  | hnil => rfl
  | hcons k v rest ih => simp [oappend, ih]

theorem okeys_oappend (a b : ODct) : okeys (oappend a b) = okeys a ++ okeys b := by
  induction a using odctIndT with
  | hnil => simp [oappend, okeys]
  | hcons k v rest ih => simp [oappend, okeys, ih]

theorem omem_iff_keys (o : ODct) (q : Key) : omem o q = true ↔ q ∈ okeys o := by
  induction o using odctIndT with
  | hnil => simp [omem, oget, okeys]
  | hcons k v rest ih =>
    by_cases h : q = k
    · subst h; simp [omem, oget, okeys]
    · simp [omem, oget_cons_ne _ _ _ _ h, okeys, h]
      exact ih

theorem omem_false_iff (o : ODct) (q : Key) : omem o q = false ↔ ¬ q ∈ okeys o := by
  rw [← omem_iff_keys]
  cases omem o q <;> simp

theorem oset_fresh (o : ODct) (q : Key) (x : OVal) (h : omem o q = false) :
    oset o q x = oappend o (.cons q x .nil) := by
  induction o using odctIndT with
  | hnil => rfl
  | hcons k v rest ih =>
    unfold omem at h
    by_cases h' : q = k
    · subst h'; simp [oget] at h
    · rw [oget_cons_ne _ _ _ _ h'] at h
      simp [oset, h', oappend, ih h]

theorem oset_present_same (o : ODct) (q : Key) (x : OVal) (h : oget o q = some x) :
    oset o q x = o := by
  induction o using odctIndT with
  | hnil => simp [oget] at h
  | hcons k v rest ih =>
    by_cases h' : q = k
    · subst h'
      rw [oget_cons_self] at h
      cases h
      simp [oset]
    · rw [oget_cons_ne _ _ _ _ h'] at h
      simp [oset, h', ih h]

theorem oget_oappend (a b : ODct) (q : Key) :
    oget (oappend a b) q = ((oget a q).orElse (fun _ => oget b q)) := by
  induction a using odctIndT with
  | hnil => simp [oappend]
  | hcons k v rest ih =>
    by_cases h : q = k
    · subst h; simp [oappend, oget]
    · simp [oappend, oget_cons_ne _ _ _ _ h, ih]

/-! ## The collision-freedom hypothesis and the shape of `from_dict` -/

mutual
/-- "No preserve-verbatim duplicate collisions": inside every group, no two
keys coincide after stripping trailing underscores; checked recursively
through group values (values of keys not ending in `_`). -/
def noCollide : Dct → Bool
  | .nil => true
  | .cons k v rest =>
    (dkeys rest).all (fun k2 => !(rstripU k == rstripU k2)) &&
      noCollideV k v && noCollide rest

/-- Collision-freedom of a single entry: recurse into group values. -/
def noCollideV : Key → Val → Bool
  | k, .vdict g => if endsU k then true else noCollide g
  | _, _ => true
end

mutual
/-- The explicit shape of `Opt.from_dict`'s namespace when no collisions
occur: entries in input order, decorated keys contributing a stripped alias
followed by the decorated entry. -/
def fdSpec : Dct → ODct
  | .nil => .nil
  | .cons k v rest =>
    if isVDict v && !(endsU k) then
      .cons (rstripU k) (.node (fdSpecV v)) (fdSpec rest)
    else if endsU k then
      .cons (rstripU k) (.leaf v) (.cons k (.leaf v) (fdSpec rest))
    else
      .cons k (.leaf v) (fdSpec rest)

def fdSpecV : Val → ODct
  | .vdict g => fdSpec g
  | _ => .nil
end

/-- Every attribute name produced by `from_dict` strips to the strip of one
of the input keys. -/
theorem fdSpec_names (C : Dct) :
    ∀ n ∈ okeys (fdSpec C), ∃ k2 ∈ dkeys C, rstripU n = rstripU k2 := by
  induction C using dctIndT with
  | hnil => intro n hn; simp [fdSpec, okeys] at hn
  | hcons k v rest ih =>
    intro n hn
    by_cases h1 : (isVDict v && !(endsU k)) = true
    · rw [fdSpec, if_pos h1] at hn
      simp only [okeys, List.mem_cons] at hn
      rcases hn with hn | hn
      · exact ⟨k, by simp [dkeys], by rw [hn, rstripU_idem]⟩
      · obtain ⟨k2, hk2, he⟩ := ih n hn
        exact ⟨k2, by simp [dkeys, hk2], he⟩
    · by_cases h2 : endsU k = true
      · rw [fdSpec, if_neg h1, if_pos h2] at hn
        simp only [okeys, List.mem_cons] at hn
        rcases hn with hn | hn | hn
        · exact ⟨k, by simp [dkeys], by rw [hn, rstripU_idem]⟩
        · exact ⟨k, by simp [dkeys], by rw [hn]⟩
        · obtain ⟨k2, hk2, he⟩ := ih n hn
          exact ⟨k2, by simp [dkeys, hk2], he⟩
      · rw [fdSpec, if_neg h1, if_neg h2] at hn
        simp only [okeys, List.mem_cons] at hn
        rcases hn with hn | hn
        · exact ⟨k, by simp [dkeys], by rw [hn]⟩
        · obtain ⟨k2, hk2, he⟩ := ih n hn
          exact ⟨k2, by simp [dkeys, hk2], he⟩

theorem omem_oappend (a b : ODct) (q : Key) :
    omem (oappend a b) q = (omem a q || omem b q) := by
  unfold omem
  rw [oget_oappend]
  cases oget a q <;> cases oget b q <;> simp [Option.orElse]

theorem dmem_dappend (a b : Dct) (q : Key) :
    dmem (dappend a b) q = (dmem a q || dmem b q) := by
  unfold dmem
  rw [dget_dappend]
  cases dget a q <;> cases dget b q <;> simp [Option.orElse]

theorem omem_eq_false_iff_oget (o : ODct) (q : Key) : omem o q = false ↔ oget o q = none := by
  unfold omem; cases oget o q <;> simp

theorem dmem_eq_false_iff_dget (d : Dct) (q : Key) : dmem d q = false ↔ dget d q = none := by
  unfold dmem; cases dget d q <;> simp

theorem noCollide_cons_iff (k : Key) (v : Val) (rest : Dct) :
    noCollide (.cons k v rest) = true ↔
      (∀ k2 ∈ dkeys rest, rstripU k ≠ rstripU k2) ∧
        noCollideV k v = true ∧ noCollide rest = true := by
  rw [noCollide]
  simp [List.all_eq_true, Bool.and_eq_true, and_assoc]

theorem noCollideV_group (k : Key) (g : Dct) (h : endsU k = false) :
    noCollideV k (.vdict g) = noCollide g := by
  simp [noCollideV, h]

theorem isVDict_iff (v : Val) : isVDict v = true ↔ ∃ g, v = .vdict g := by
  cases v <;> simp [isVDict]

/-- Under collision-freedom, `from_dict` appends exactly the `fdSpec` shape. -/
theorem from_dictGo_eq (C : Dct) (hnc : noCollide C = true) :
    ∀ acc, (∀ n ∈ okeys (fdSpec C), omem acc n = false) →
    from_dictGo C acc = oappend acc (fdSpec C) := by
  induction C using dctInd with
  | hnil => intro acc _; simp [from_dictGo, fdSpec]
  | hcons k v rest ihg ihr =>
    intro acc hfresh
    obtain ⟨hall, hncv, hncr⟩ := (noCollide_cons_iff k v rest).1 hnc
    have hnames : ∀ n ∈ okeys (fdSpec rest), n ≠ rstripU k ∧ n ≠ k := by
      intro n hn
      obtain ⟨k2, hk2, he⟩ := fdSpec_names rest n hn
      have hne := hall k2 hk2
      constructor
      · intro h; rw [h, rstripU_idem] at he; exact hne he
      · intro h; rw [h] at he; exact hne he
    by_cases h1 : (isVDict v && !(endsU k)) = true
    · -- group entry
      obtain ⟨hd, hu⟩ : isVDict v = true ∧ (!(endsU k)) = true := by
        constructor <;> [exact (Bool.and_elim_left h1); exact (Bool.and_elim_right h1)]
      obtain ⟨g, rfl⟩ := (isVDict_iff v).1 hd
      have hu' : endsU k = false := by simpa using hu
      have hspec : fdSpec (.cons k (.vdict g) rest)
          = .cons (rstripU k) (.node (fdSpecV (.vdict g))) (fdSpec rest) := by
        rw [fdSpec, if_pos h1]
      have hmem : omem acc (rstripU k) = false := by
        apply hfresh
        rw [hspec]; simp [okeys]
      have hin : from_dictV (.vdict g) = fdSpecV (.vdict g) := by
        rw [from_dictV, fdSpecV]
        rw [ihg g rfl ((noCollideV_group k g hu') ▸ hncv) .nil (fun n _ => rfl)]
        simp [oappend]
      rw [from_dictGo, if_pos h1, hin, oset_fresh _ _ _ hmem]
      rw [ihr hncr _ ?fresh]
      · rw [hspec, oappend_assoc]; rfl
      case fresh =>
        intro n hn
        rw [omem_oappend]
        have h2 := (omem_eq_false_iff_oget _ _).1
          (hfresh n (by rw [hspec]; simp [okeys]; right; exact hn))
        have h3 := (hnames n hn).1
        simp [omem, oget, h2, h3]
    · by_cases h2 : endsU k = true
      · -- preserve-verbatim entry: stored under both names
        have hspec : fdSpec (.cons k v rest)
            = .cons (rstripU k) (.leaf v) (.cons k (.leaf v) (fdSpec rest)) := by
          rw [fdSpec, if_neg h1, if_pos h2]
        have hmem1 : omem acc (rstripU k) = false := by
          apply hfresh; rw [hspec]; simp [okeys]
        have hkne : k ≠ rstripU k := fun h => rstripU_ne_of_endsU k h2 h.symm
        have hmemk : omem acc k = false := by
          apply hfresh; rw [hspec]; simp [okeys]
        have hmem2 : omem (oappend acc (.cons (rstripU k) (.leaf v) .nil)) k = false := by
          rw [omem_oappend, hmemk]
          simp [omem, oget, hkne]
        rw [from_dictGo, if_neg h1, oset_fresh _ _ _ hmem1, oset_fresh _ _ _ hmem2]
        rw [ihr hncr _ ?fresh2]
        · rw [hspec, oappend_assoc, oappend_assoc]; rfl
        case fresh2 =>
          intro n hn
          rw [omem_oappend, omem_oappend]
          have h3 := (omem_eq_false_iff_oget _ _).1
            (hfresh n (by rw [hspec]; simp [okeys]; right; right; exact hn))
          have h4 := hnames n hn
          simp [omem, oget, h3, h4.1, h4.2]
      · -- plain entry (key without trailing underscore, value handled verbatim)
        have h2' : endsU k = false := by simpa using h2
        have hks : rstripU k = k := rstripU_of_endsU_false k h2'
        have hspec : fdSpec (.cons k v rest) = .cons k (.leaf v) (fdSpec rest) := by
          rw [fdSpec, if_neg h1, if_neg h2]
        have hmemk : omem acc k = false := by
          apply hfresh; rw [hspec]; simp [okeys]
        have hstep : oset (oset acc (rstripU k) (.leaf v)) k (.leaf v)
            = oappend acc (.cons k (.leaf v) .nil) := by
          rw [hks, oset_fresh _ _ _ hmemk]
          apply oset_present_same
          rw [oget_oappend]
          cases hx : oget acc k with
          | some w => unfold omem at hmemk; rw [hx] at hmemk; simp at hmemk
          | none => simp [Option.orElse, oget]
        rw [from_dictGo, if_neg h1, hstep]
        rw [ihr hncr _ ?fresh3]
        · rw [hspec, oappend_assoc]; rfl
        case fresh3 =>
          intro n hn
          rw [omem_oappend]
          have h3 := (omem_eq_false_iff_oget _ _).1
            (hfresh n (by rw [hspec]; simp [okeys]; right; exact hn))
          have h4 := (hnames n hn).2
          simp [omem, oget, h3, h4]

/-- Under collision-freedom, `to_dict` of the `from_dict` shape restores the
original nested map, entry by entry. -/
theorem to_dictGo_fdSpec (C : Dct) (hnc : noCollide C = true) :
    ∀ acc, (∀ x ∈ dkeys acc, ∀ k2 ∈ dkeys C, rstripU x ≠ rstripU k2) →
    to_dictGo (fdSpec C) acc = dappend acc C := by
  induction C using dctInd with
  | hnil => intro acc _; simp [fdSpec, to_dictGo]
  | hcons k v rest ihg ihr =>
    intro acc hacc
    obtain ⟨hall, hncv, hncr⟩ := (noCollide_cons_iff k v rest).1 hnc
    have hknotin : dmem acc (rstripU k) = false := by
      rw [dmem_eq_false_iff_dget]
      cases hx : dget acc (rstripU k) with
      | none => rfl
      | some w =>
        exfalso
        have hxk : rstripU k ∈ dkeys acc := by
          rw [← dmem_iff_keys]
          unfold dmem
          rw [hx]
          rfl
        exact hacc (rstripU k) hxk k (by simp [dkeys]) (by rw [rstripU_idem])
    have hkmem : dmem acc k = false := by
      rw [dmem_eq_false_iff_dget]
      cases hx : dget acc k with
      | none => rfl
      | some w =>
        exfalso
        have hxk : k ∈ dkeys acc := by
          rw [← dmem_iff_keys]; unfold dmem; rw [hx]; rfl
        exact hacc k hxk k (by simp [dkeys]) rfl
    have haccrest : ∀ x ∈ dkeys (dappend acc (.cons k v .nil)),
        ∀ k2 ∈ dkeys rest, rstripU x ≠ rstripU k2 := by
      intro x hx k2 hk2
      rw [dkeys_dappend] at hx
      rcases List.mem_append.1 hx with hx | hx
      · exact hacc x hx k2 (by simp [dkeys, hk2])
      · simp [dkeys] at hx
        subst hx
        exact hall k2 hk2
    by_cases h1 : (isVDict v && !(endsU k)) = true
    · -- group entry
      obtain ⟨hd, hu⟩ : isVDict v = true ∧ (!(endsU k)) = true := by
        constructor <;> [exact (Bool.and_elim_left h1); exact (Bool.and_elim_right h1)]
      obtain ⟨g, rfl⟩ := (isVDict_iff v).1 hd
      have hu' : endsU k = false := by simpa using hu
      have hks : rstripU k = k := rstripU_of_endsU_false k hu'
      have hval : to_dictV (.node (fdSpecV (.vdict g))) = .vdict g := by
        rw [to_dictV, fdSpecV]
        rw [ihg g rfl ((noCollideV_group k g hu') ▸ hncv) .nil (by intro x hx; simp [dkeys] at hx)]
        simp [dappend]
      have hif : (if dmem acc k = true then dpop acc k else acc) = acc := by
        rw [hkmem]; simp
      rw [fdSpec, if_pos h1, to_dictGo, rstripU_idem, hks, hif, hval,
        dset_fresh _ _ _ hkmem]
      rw [ihr hncr _ haccrest, dappend_assoc]
      rfl
    · by_cases h2 : endsU k = true
      · -- preserve-verbatim entry: the stripped alias is dropped again
        have hkne : rstripU k ≠ k := rstripU_ne_of_endsU k h2
        have hif1 : (if dmem acc (rstripU k) = true then dpop acc (rstripU k) else acc)
            = acc := by
          rw [hknotin]; simp
        rw [fdSpec, if_neg h1, if_pos h2, to_dictGo, rstripU_idem, hif1, to_dictV,
          dset_fresh _ _ _ hknotin, to_dictGo, to_dictV]
        have hmem2 : dmem (dappend acc (.cons (rstripU k) v .nil)) (rstripU k) = true := by
          rw [dmem_dappend]
          simp [dmem, dget]
        rw [hmem2]
        simp only [if_true]
        rw [dpop_append_last _ _ _ hknotin, dset_fresh _ _ _ hkmem]
        rw [ihr hncr _ haccrest, dappend_assoc]
        rfl
      · -- plain entry
        have h2' : endsU k = false := by simpa using h2
        have hks : rstripU k = k := rstripU_of_endsU_false k h2'
        have hif : (if dmem acc k = true then dpop acc k else acc) = acc := by
          rw [hkmem]; simp
        rw [fdSpec, if_neg h1, if_neg h2, to_dictGo, hks, hif, to_dictV,
          dset_fresh _ _ _ hkmem]
        rw [ihr hncr _ haccrest, dappend_assoc]
        rfl

/-- Round trip of `Opt.from_dict` / `Opt.to_dict` on collision-free maps. -/
theorem to_dict_from_dict (C : Dct) (hnc : noCollide C = true) :
    to_dict (from_dictD C) = C := by
  unfold to_dict from_dictD
  rw [from_dictGo_eq C hnc .nil (by intro n _; rfl)]
  have h := to_dictGo_fdSpec C hnc .nil (by intro x hx; simp [dkeys] at hx)
  simpa [oappend, dappend] using h

/-! ## Path splitting and joining -/

/-- Join path pieces with dots (inverse of `splitDot`, proof-side helper). -/
def joinDots : List Key → Key
  | [] => []
  | [a] => a
  | a :: as => a ++ '.' :: joinDots as

theorem splitDot_ne_nil (k : Key) : splitDot k ≠ [] := by
  induction k with
  | nil => simp [splitDot]
  | cons c cs ih =>
    rw [splitDot]
    by_cases h : c = '.'
    · simp [h]
    · simp only [h, if_false]
      cases hs : splitDot cs with
      | nil => simp
      | cons s ss => simp

theorem joinDots_splitDot (k : Key) : joinDots (splitDot k) = k := by
  induction k with
  | nil => simp [splitDot, joinDots]
  | cons c cs ih =>
    rw [splitDot]
    by_cases h : c = '.'
    · subst h
      rw [if_pos rfl]
      cases hs : splitDot cs with
      | nil => exact absurd hs (splitDot_ne_nil cs)
      | cons s ss =>
        rw [hs] at ih
        show joinDots ([] :: s :: ss) = '.' :: cs
        rw [show joinDots ([] :: s :: ss) = [] ++ '.' :: joinDots (s :: ss) from rfl]
        simp [ih]
    · simp only [h, if_false]
      cases hs : splitDot cs with
      | nil => exact absurd hs (splitDot_ne_nil cs)
      | cons s ss =>
        rw [hs] at ih
        cases ss with
        | nil => simp [joinDots] at ih ⊢; rw [ih]
        | cons s2 ss2 => simp [joinDots] at ih ⊢; rw [ih]

theorem splitDot_inj (a b : Key) (h : splitDot a = splitDot b) : a = b := by
  have ha := joinDots_splitDot a
  have hb := joinDots_splitDot b
  rw [← ha, ← hb, h]

theorem splitDot_of_noDot (k : Key) (h : hasDot k = false) : splitDot k = [k] := by
  induction k with
  | nil => simp [splitDot]
  | cons c cs ih =>
    unfold hasDot at h ih
    simp only [List.contains_cons, Bool.or_eq_false_iff] at h
    obtain ⟨h1, h2⟩ := h
    have hc : ¬ (c = '.') := by
      intro hc; subst hc; simp at h1
    rw [splitDot, if_neg hc, ih h2]

theorem splitDot_append (a b : Key) (h : hasDot a = false) :
    splitDot (a ++ '.' :: b) = a :: splitDot b := by
  induction a with
  | nil => simp [splitDot]
  | cons c cs ih =>
    unfold hasDot at h ih
    simp only [List.contains_cons, Bool.or_eq_false_iff] at h
    obtain ⟨h1, h2⟩ := h
    have hc : ¬ (c = '.') := by
      intro hc; subst hc; simp at h1
    simp only [List.cons_append, splitDot, if_neg hc]
    rw [List.append_eq, ih h2]

/-- Pieces produced by `splitDot` contain no dot. -/
theorem splitDot_pieces (k : Key) : ∀ p ∈ splitDot k, hasDot p = false := by
  induction k with
  | nil => intro p hp; simp [splitDot] at hp; simp [hp, hasDot]
  | cons c cs ih =>
    intro p hp
    rw [splitDot] at hp
    by_cases h : c = '.'
    · simp only [h, if_true, List.mem_cons] at hp
      rcases hp with hp | hp
      · simp [hp, hasDot]
      · exact ih p hp
    · simp only [h, if_false] at hp
      cases hs : splitDot cs with
      | nil => exact absurd hs (splitDot_ne_nil cs)
      | cons s ss =>
        rw [hs] at hp
        simp only [List.mem_cons] at hp
        rcases hp with hp | hp
        · subst hp
          have hs' : hasDot s = false := ih s (by rw [hs]; simp)
          have hcb : ¬ ('.' = c) := fun hcc => h hcc.symm
          unfold hasDot at hs' ⊢
          simp only [List.contains_cons, Bool.or_eq_false_iff]
          refine ⟨?_, hs'⟩
          simpa using hcb
        · exact ih p (by rw [hs]; simp [hp])

theorem hasDot_of_splitDot_long (k : Key) (a : Key) (b : List Key)
    (h : splitDot k = a :: b) (hb : b ≠ []) : hasDot k = true := by
  by_contra hc
  simp only [Bool.not_eq_true] at hc
  rw [splitDot_of_noDot k hc] at h
  cases h
  exact hb rfl

theorem splitDot_long_of_hasDot (k : Key) (h : hasDot k = true) :
    ∃ a b, splitDot k = a :: b ∧ b ≠ [] := by
  induction k with
  | nil => simp [hasDot] at h
  | cons c cs ih =>
    by_cases hc : c = '.'
    · subst hc
      rw [splitDot, if_pos rfl]
      exact ⟨[], splitDot cs, rfl, splitDot_ne_nil cs⟩
    · unfold hasDot at h
      simp only [List.contains_cons, Bool.or_eq_true] at h
      rcases h with h | h
      · exfalso; apply hc; have := of_decide_eq_true h; exact this.symm
      · obtain ⟨a, b, hab, hb⟩ := ih h
        rw [splitDot, if_neg hc, hab]
        cases b with
        | nil => exact absurd rfl hb
        | cons b1 bs => exact ⟨c :: a, b1 :: bs, rfl, by simp⟩

/-- Two dot-joined keys with distinct dot-free heads differ. -/
theorem dotJoin_ne (k1 k2 : Key) (a b : Key)
    (h1 : hasDot k1 = false) (h2 : hasDot k2 = false) (hne : k1 ≠ k2) :
    k1 ++ '.' :: a ≠ k2 ++ '.' :: b := by
  intro he
  have := congrArg splitDot he
  rw [splitDot_append _ _ h1, splitDot_append _ _ h2] at this
  exact hne (List.head_eq_of_cons_eq this)

theorem noDot_ne_dotJoin (k1 k2 : Key) (a : Key) (h1 : hasDot k1 = false) :
    k1 ≠ k2 ++ '.' :: a := by
  intro he
  unfold hasDot at h1
  rw [he] at h1
  simp at h1

/-! ## More ordered-dict lemmas -/

theorem dget_eq_none_iff (d : Dct) (q : Key) : dget d q = none ↔ ¬ q ∈ dkeys d := by
  rw [← dmem_eq_false_iff_dget, dmem_false_iff]

theorem dset_dset_same (d : Dct) (q : Key) (x y : Val) :
    dset (dset d q x) q y = dset d q y := by
  induction d using dctIndT with
  | hnil => simp [dset]
  | hcons k v rest ih =>
    by_cases h : q = k
    · subst h; simp [dset]
    · simp [dset, h, ih]

theorem dset_present_same (d : Dct) (q : Key) (x : Val) (h : dget d q = some x) :
    dset d q x = d := by
  induction d using dctIndT with
  | hnil => simp [dget] at h
  | hcons k v rest ih =>
    by_cases h' : q = k
    · subst h'
      rw [dget_cons_self] at h
      cases h
      simp [dset]
    · rw [dget_cons_ne _ _ _ _ h'] at h
      simp [dset, h', ih h]

theorem dset_ne_nil (d : Dct) (q : Key) (x : Val) : dset d q x ≠ .nil := by
  cases d with
  | nil => simp [dset]
  | cons k v rest =>
    rw [dset]
    by_cases h : q = k <;> simp [h]

theorem dmem_dset_ne (d : Dct) (q r : Key) (x : Val) (h : r ≠ q) :
    dmem (dset d q x) r = dmem d r := by
  unfold dmem
  rw [dget_dset_ne _ _ _ _ h]

theorem dkeys_dget_some (d : Dct) (q : Key) (h : q ∈ dkeys d) :
    ∃ v, dget d q = some v := by
  cases hx : dget d q with
  | some v => exact ⟨v, rfl⟩
  | none => rw [dget_eq_none_iff] at hx; exact absurd h hx

/-! ## Well-formedness predicates -/

/-- Key uniqueness at one dict level (automatic for real Python dicts; a
representation invariant of the association-list model). -/
def dUniq : Dct → Bool
  | .nil => true
  | .cons k _ rest => !(dmem rest k) && dUniq rest

/-- All values at the top level are non-dicts. -/
def valsND : Dct → Bool
  | .nil => true
  | .cons _ v rest => !(isVDict v) && valsND rest

mutual
/-- Structural well-formedness of a nested map, as the flatten/expand pair
assumes it: dot-free keys and unique keys at every level, recursively
through every dict value. -/
def deepOK : Dct → Bool
  | .nil => true
  | .cons k v rest => !(hasDot k) && !(dmem rest k) && deepOKV v && deepOK rest

def deepOKV : Val → Bool
  | .vdict g => deepOK g
  | _ => true
end

mutual
/-- No empty dict occurs as a value, recursively. -/
def noEmptyDeep : Dct → Bool
  | .nil => true
  | .cons _ v rest => noEmptyV v && noEmptyDeep rest

def noEmptyV : Val → Bool
  | .vdict .nil => false
  | .vdict g => noEmptyDeep g
  | _ => true
end

theorem deepOK_cons_iff (k : Key) (v : Val) (rest : Dct) :
    deepOK (.cons k v rest) = true ↔
      hasDot k = false ∧ dmem rest k = false ∧ deepOKV v = true ∧ deepOK rest = true := by
  rw [deepOK]
  simp [Bool.and_eq_true, and_assoc]

theorem noEmptyDeep_cons_iff (k : Key) (v : Val) (rest : Dct) :
    noEmptyDeep (.cons k v rest) = true ↔ noEmptyV v = true ∧ noEmptyDeep rest = true := by
  rw [noEmptyDeep]
  simp [Bool.and_eq_true]

theorem noEmptyV_dict_iff (g : Dct) :
    noEmptyV (.vdict g) = true ↔ g ≠ .nil ∧ noEmptyDeep g = true := by
  cases g with
  | nil => simp [noEmptyV]
  | cons k v rest => simp [noEmptyV]

theorem deepOK_keys (d : Dct) (hd : deepOK d = true) :
    ∀ k ∈ dkeys d, hasDot k = false := by
  induction d using dctIndT with
  | hnil => intro k hk; simp [dkeys] at hk
  | hcons k v rest ih =>
    obtain ⟨h1, _, _, h4⟩ := (deepOK_cons_iff _ _ _).1 hd
    intro q hq
    rcases List.mem_cons.1 hq with rfl | hq
    · exact h1
    · exact ih h4 q hq

theorem deepOK_dget (d : Dct) (q : Key) (v : Val) (hd : deepOK d = true)
    (hg : dget d q = some v) : deepOKV v = true := by
  induction d using dctIndT with
  | hnil => simp [dget] at hg
  | hcons k w rest ih =>
    obtain ⟨_, _, h3, h4⟩ := (deepOK_cons_iff _ _ _).1 hd
    by_cases hq : q = k
    · subst hq; rw [dget_cons_self] at hg; cases hg; exact h3
    · rw [dget_cons_ne _ _ _ _ hq] at hg; exact ih h4 hg

theorem noEmpty_dget (d : Dct) (q : Key) (v : Val) (hd : noEmptyDeep d = true)
    (hg : dget d q = some v) : noEmptyV v = true := by
  induction d using dctIndT with
  | hnil => simp [dget] at hg
  | hcons k w rest ih =>
    obtain ⟨h1, h2⟩ := (noEmptyDeep_cons_iff _ _ _).1 hd
    by_cases hq : q = k
    · subst hq; rw [dget_cons_self] at hg; cases hg; exact h1
    · rw [dget_cons_ne _ _ _ _ hq] at hg; exact ih h2 hg

/-! ## The flat image as a plain concatenation -/

mutual
/-- The flat map `_flatten_dict` produces, written as a concatenation of
per-entry blocks (this coincides with the function once all flat keys are
distinct, which `deepOK` guarantees). -/
def flatSpec : Dct → Option Key → Dct
  | .nil, _ => .nil
  | .cons k v rest, pre =>
    if isVDict v then dappend (flatSpecV v (joinPre pre k)) (flatSpec rest pre)
    else .cons (joinPre pre k) v (flatSpec rest pre)

def flatSpecV : Val → Key → Dct
  | .vdict g, nk => flatSpec g (some nk)
  | _, _ => .nil
end

/-- Prefixing every key of a flat map with `p ++ "."`. -/
def mapKeysPre (p : Key) : Dct → Dct
  | .nil => .nil
  | .cons k v rest => .cons (p ++ '.' :: k) v (mapKeysPre p rest)

theorem mapKeysPre_dappend (p : Key) (a b : Dct) :
    mapKeysPre p (dappend a b) = dappend (mapKeysPre p a) (mapKeysPre p b) := by
  induction a using dctIndT with
  | hnil => rfl
  | hcons k v rest ih => simp [dappend, mapKeysPre, ih]

theorem mapKeysPre_compose (p k : Key) (m : Dct) :
    mapKeysPre (p ++ '.' :: k) m = mapKeysPre p (mapKeysPre k m) := by
  induction m using dctIndT with
  | hnil => rfl
  | hcons q v rest ih => simp [mapKeysPre, ih]

theorem joinPre_nest (pre : Option Key) (k x : Key) :
    joinPre (some (joinPre pre k)) x = joinPre pre (k ++ '.' :: x) := by
  cases pre with
  | none => rfl
  | some p => simp [joinPre]

theorem joinPre_inj (pre : Option Key) (a b : Key) (h : joinPre pre a = joinPre pre b) :
    a = b := by
  cases pre with
  | none => exact h
  | some p =>
    simp only [joinPre, List.append_cancel_left_eq] at h
    exact List.tail_eq_of_cons_eq h

/-- `flatSpec` with a prefix is `flatSpec` without one, with prefixed keys. -/
theorem flatSpec_pre (d : Dct) : ∀ p : Key,
    flatSpec d (some p) = mapKeysPre p (flatSpec d none) := by
  induction d using dctInd with
  | hnil => intro p; rfl
  | hcons k v rest ihg ihr =>
    intro p
    by_cases hv : isVDict v = true
    · obtain ⟨g, rfl⟩ := (isVDict_iff v).1 hv
      rw [flatSpec, if_pos hv, flatSpec, if_pos hv]
      rw [mapKeysPre_dappend]
      congr 1
      · rw [flatSpecV, flatSpecV]
        rw [ihg g rfl, ihg g rfl]
        show mapKeysPre (p ++ '.' :: k) (flatSpec g none)
          = mapKeysPre p (mapKeysPre k (flatSpec g none))
        exact mapKeysPre_compose p k (flatSpec g none)
      · exact ihr p
    · rw [flatSpec, if_neg hv, flatSpec, if_neg hv]
      simp [mapKeysPre, joinPre, ihr p]

/-- Every key of the flat image comes from a top-level key, possibly with a
dotted continuation. -/
theorem flatSpec_keys (d : Dct) : ∀ (pre : Option Key) (q : Key),
    q ∈ dkeys (flatSpec d pre) →
    ∃ k2 ∈ dkeys d, q = joinPre pre k2 ∨ ∃ t, q = joinPre pre (k2 ++ '.' :: t) := by
  induction d using dctInd with
  | hnil => intro pre q hq; simp [flatSpec, dkeys] at hq
  | hcons k v rest ihg ihr =>
    intro pre q hq
    by_cases hv : isVDict v = true
    · obtain ⟨g, rfl⟩ := (isVDict_iff v).1 hv
      rw [flatSpec, if_pos hv] at hq
      rw [dkeys_dappend] at hq
      rcases List.mem_append.1 hq with hq | hq
      · rw [flatSpecV] at hq
        obtain ⟨k3, _, hcase⟩ := ihg g rfl (some (joinPre pre k)) q hq
        rcases hcase with he | ⟨t, he⟩
        · rw [joinPre_nest] at he
          exact ⟨k, by simp [dkeys], Or.inr ⟨k3, he⟩⟩
        · rw [joinPre_nest] at he
          refine ⟨k, by simp [dkeys], Or.inr ⟨k3 ++ '.' :: t, ?_⟩⟩
          rw [he]
      · obtain ⟨k2, hk2, hcase⟩ := ihr pre q hq
        exact ⟨k2, by simp [dkeys, hk2], hcase⟩
    · rw [flatSpec, if_neg hv] at hq
      simp only [dkeys, List.mem_cons] at hq
      rcases hq with rfl | hq
      · exact ⟨k, by simp [dkeys], Or.inl rfl⟩
      · obtain ⟨k2, hk2, hcase⟩ := ihr pre q hq
        exact ⟨k2, by simp [dkeys, hk2], hcase⟩

theorem dUniq_dappend_iff (a b : Dct) :
    dUniq (dappend a b) = true ↔
      dUniq a = true ∧ dUniq b = true ∧ ∀ q ∈ dkeys a, ¬ q ∈ dkeys b := by
  induction a using dctIndT with
  | hnil => simp [dappend, dUniq, dkeys]
  | hcons k v rest ih =>
    simp only [dappend, dUniq, Bool.and_eq_true, dmem_dappend, Bool.not_eq_true',
      Bool.or_eq_false_iff, dkeys, List.mem_cons, ih]
    constructor
    · rintro ⟨⟨hk1, hk2⟩, hu, hub, hdisj⟩
      refine ⟨⟨by rw [hk1], hu⟩, hub, ?_⟩
      intro q hq
      rcases hq with rfl | hq
      · rw [dmem_false_iff] at hk2; exact hk2
      · exact hdisj q hq
    · rintro ⟨⟨hk1, hu⟩, hub, hdisj⟩
      refine ⟨⟨by rw [hk1], ?_⟩, hu, hub, ?_⟩
      · rw [dmem_false_iff]; exact hdisj k (Or.inl rfl)
      · intro q hq; exact hdisj q (Or.inr hq)

/-- Under `deepOK`, all flat keys of a nested map are pairwise distinct. -/
theorem flatSpec_dUniq (d : Dct) (hd : deepOK d = true) :
    ∀ pre, dUniq (flatSpec d pre) = true := by
  induction d using dctInd with
  | hnil => intro pre; simp [flatSpec, dUniq]
  | hcons k v rest ihg ihr =>
    intro pre
    obtain ⟨hdot, hmem, hV, hrest⟩ := (deepOK_cons_iff _ _ _).1 hd
    have hknotinrest : ¬ k ∈ dkeys rest := (dmem_false_iff _ _).1 hmem
    by_cases hv : isVDict v = true
    · obtain ⟨g, rfl⟩ := (isVDict_iff v).1 hv
      rw [flatSpec, if_pos hv, dUniq_dappend_iff]
      refine ⟨?_, ihr hrest pre, ?_⟩
      · rw [flatSpecV]
        exact ihg g rfl (by rw [deepOKV] at hV; exact hV) (some (joinPre pre k))
      · intro q hqA hqB
        rw [flatSpecV] at hqA
        obtain ⟨k3, _, hcA⟩ := flatSpec_keys g (some (joinPre pre k)) q hqA
        obtain ⟨k2, hk2, hcB⟩ := flatSpec_keys rest pre q hqB
        have hk2dot : hasDot k2 = false := deepOK_keys rest hrest k2 hk2
        have hkne : k ≠ k2 := fun he => hknotinrest (he ▸ hk2)
        have hqA' : ∃ x, q = joinPre pre (k ++ '.' :: x) := by
          rcases hcA with he | ⟨t, he⟩
          · exact ⟨k3, by rw [he, joinPre_nest]⟩
          · exact ⟨k3 ++ '.' :: t, by rw [he, joinPre_nest]⟩
        obtain ⟨x, hx⟩ := hqA'
        rcases hcB with he | ⟨t, he⟩
        · rw [hx] at he
          have := joinPre_inj pre _ _ he
          exact noDot_ne_dotJoin k2 k x hk2dot this.symm
        · rw [hx] at he
          have := joinPre_inj pre _ _ he
          exact dotJoin_ne k k2 x t hdot hk2dot hkne this
    · rw [flatSpec, if_neg hv, dUniq]
      rw [Bool.and_eq_true]
      refine ⟨?_, ihr hrest pre⟩
      rw [Bool.not_eq_true', dmem_false_iff]
      intro hq
      obtain ⟨k2, hk2, hcase⟩ := flatSpec_keys rest pre _ hq
      have hk2dot : hasDot k2 = false := deepOK_keys rest hrest k2 hk2
      have hkne : k ≠ k2 := fun he => hknotinrest (he ▸ hk2)
      rcases hcase with he | ⟨t, he⟩
      · exact hkne (joinPre_inj pre _ _ he)
      · exact noDot_ne_dotJoin k k2 t hdot (joinPre_inj pre _ _ he)

theorem dupdate_fresh (m : Dct) : ∀ acc,
    (∀ q ∈ dkeys m, dmem acc q = false) → dUniq m = true →
    dupdate acc m = dappend acc m := by
  induction m using dctIndT with
  | hnil => intro acc _ _; simp [dupdate, dappend]
  | hcons k v rest ih =>
    intro acc hfresh hu
    obtain ⟨hk, hur⟩ : (!(dmem rest k)) = true ∧ dUniq rest = true := by
      rw [← Bool.and_eq_true]; exact hu
    rw [dupdate, dset_fresh _ _ _ (hfresh k (by simp [dkeys]))]
    rw [ih _ ?fr hur, dappend_assoc]
    · rfl
    case fr =>
      intro q hq
      rw [dmem_dappend, hfresh q (by simp [dkeys, hq])]
      have hqk : q ≠ k := by
        intro he
        rw [Bool.not_eq_true', dmem_false_iff] at hk
        exact hk (he ▸ hq)
      simp [dmem, dget, hqk]

/-- With pairwise-distinct flat keys, `_flatten_dict`'s accumulating loop
produces exactly the concatenated blocks. -/
theorem flatten_go_eq (d : Dct) : ∀ (pre : Option Key) (acc : Dct),
    dUniq (flatSpec d pre) = true →
    (∀ q ∈ dkeys (flatSpec d pre), dmem acc q = false) →
    flatten_go d pre acc = dappend acc (flatSpec d pre) := by
  induction d using dctInd with
  | hnil => intro pre acc _ _; simp [flatten_go, flatSpec]
  | hcons k v rest ihg ihr =>
    intro pre acc hu hfresh
    by_cases hv : isVDict v = true
    · obtain ⟨g, rfl⟩ := (isVDict_iff v).1 hv
      rw [flatSpec, if_pos hv] at hu hfresh
      obtain ⟨huA, huB, hdisj⟩ := (dUniq_dappend_iff _ _).1 hu
      rw [flatSpecV] at huA hdisj
      have hval : flatten_val (.vdict g) (joinPre pre k) = flatSpec g (some (joinPre pre k)) := by
        rw [flatten_val]
        rw [ihg g rfl (some (joinPre pre k)) .nil huA (fun q _ => rfl)]
        rfl
      rw [flatten_go, if_pos hv, hval]
      rw [dupdate_fresh _ _ ?frA huA]
      case frA =>
        intro q hq
        exact hfresh q (by rw [dkeys_dappend]; exact List.mem_append.2 (Or.inl hq))
      rw [ihr pre _ huB ?frB]
      case frB =>
        intro q hq
        rw [dmem_dappend]
        have h1 := hfresh q (by rw [dkeys_dappend]; exact List.mem_append.2 (Or.inr hq))
        have h2 : ¬ q ∈ dkeys (flatSpec g (some (joinPre pre k))) := fun hx => hdisj q hx hq
        rw [h1, ← dmem_false_iff] at *
        simp [h1, h2]
      rw [flatSpec, if_pos hv, flatSpecV, dappend_assoc]
    · rw [flatSpec, if_neg hv] at hu hfresh
      obtain ⟨hk, hur⟩ : (!(dmem (flatSpec rest pre) (joinPre pre k))) = true
          ∧ dUniq (flatSpec rest pre) = true := by
        rw [← Bool.and_eq_true]; exact hu
      rw [flatten_go, if_neg hv]
      rw [dset_fresh _ _ _ (hfresh _ (by simp [dkeys]))]
      rw [ihr pre _ hur ?frC]
      case frC =>
        intro q hq
        rw [dmem_dappend, hfresh q (by simp [dkeys, hq])]
        have hqk : q ≠ joinPre pre k := by
          intro he
          rw [Bool.not_eq_true', dmem_false_iff] at hk
          exact hk (he ▸ hq)
        simp [dmem, dget, hqk]
      rw [flatSpec, if_neg hv, dappend_assoc]
      rfl

/-- `_flatten_dict` on a `deepOK` map is the concatenation of blocks. -/
theorem flatten_dict_eq (d : Dct) (hd : deepOK d = true) (pre : Option Key) :
    flatten_dict d pre = flatSpec d pre := by
  unfold flatten_dict
  rw [flatten_go_eq d pre .nil (flatSpec_dUniq d hd pre) (fun q _ => rfl)]
  rfl

theorem valsND_dappend (a b : Dct) :
    valsND (dappend a b) = (valsND a && valsND b) := by
  induction a using dctIndT with
  | hnil => simp [dappend, valsND]
  | hcons k v rest ih => simp [dappend, valsND, ih, Bool.and_assoc]

/-- Flat maps produced by flattening never contain dict values. -/
theorem flatSpec_valsND (d : Dct) : ∀ pre, valsND (flatSpec d pre) = true := by
  induction d using dctInd with
  | hnil => intro pre; simp [flatSpec, valsND]
  | hcons k v rest ihg ihr =>
    intro pre
    by_cases hv : isVDict v = true
    · obtain ⟨g, rfl⟩ := (isVDict_iff v).1 hv
      rw [flatSpec, if_pos hv, valsND_dappend, flatSpecV]
      rw [ihg g rfl, ihr pre]
      rfl
    · rw [flatSpec, if_neg hv, valsND]
      rw [ihr pre]
      simp [hv]

theorem dappend_ne_nil_left (a b : Dct) (h : a ≠ .nil) : dappend a b ≠ .nil := by
  cases a with
  | nil => exact absurd rfl h
  | cons k v rest => simp [dappend]

/-- A nonempty map without empty sub-dicts flattens to a nonempty flat map. -/
theorem flatSpec_ne_nil (d : Dct) (hne : noEmptyDeep d = true) (h0 : d ≠ .nil) :
    ∀ pre, flatSpec d pre ≠ .nil := by
  induction d using dctInd with
  | hnil => exact absurd rfl h0
  | hcons k v rest ihg ihr =>
    intro pre
    obtain ⟨hv, hrest⟩ := (noEmptyDeep_cons_iff _ _ _).1 hne
    by_cases hvd : isVDict v = true
    · obtain ⟨g, rfl⟩ := (isVDict_iff v).1 hvd
      obtain ⟨hg0, hgne⟩ := (noEmptyV_dict_iff g).1 hv
      rw [flatSpec, if_pos hvd, flatSpecV]
      exact dappend_ne_nil_left _ _ (ihg g rfl hgne hg0 (some (joinPre pre k)))
    · rw [flatSpec, if_neg hvd]
      simp

/-! ## Path insertion: the effect of one `from_flat_dict` iteration -/

/-- Proof-side description of inserting one split dot-path into the
expansion accumulator; `none` marks the iterations that raise. -/
def insertPath : Dct → List Key → Val → Option Dct
  | d, [], _ => some d
  | d, [s], v => some (dset d s v)
  | d, s :: ss, v =>
    match dget d s with
    | none => some (dset d s (.vdict (expand_from_keys ss v)))
    | some (.vdict g) => (insertPath g ss v).map (fun g2 => dset d s (.vdict g2))
    | some _ => none

theorem expand_from_keys_single (s : Key) (v : Val) :
    expand_from_keys [s] v = .cons s v .nil := rfl

theorem expand_from_keys_cons2 (s s2 : Key) (ss : List Key) (v : Val) :
    expand_from_keys (s :: s2 :: ss) v = .cons s (.vdict (expand_from_keys (s2 :: ss) v)) .nil := rfl

theorem insertPath_single (d : Dct) (s : Key) (v : Val) :
    insertPath d [s] v = some (dset d s v) := rfl

theorem insertPath_cons2 (d : Dct) (s s2 : Key) (ss : List Key) (v : Val) :
    insertPath d (s :: s2 :: ss) v =
      match dget d s with
      | none => some (dset d s (.vdict (expand_from_keys (s2 :: ss) v)))
      | some (.vdict g) => (insertPath g (s2 :: ss) v).map (fun g2 => dset d s (.vdict g2))
      | some _ => none := rfl

theorem recursive_update_nonDict {ε : Type} (cur : Val) (hc : isVDict cur = false)
    (s : Key) (X : Val) (rest : Dct) :
    ∃ e, recursive_update (ε := ε) cur (.cons s X rest) = .error e := by
  cases cur
  case vdict g => rw [isVDict] at hc; cases hc
  all_goals (cases X <;> exact ⟨_, rfl⟩)

theorem recursive_update_nonDict_expand {ε : Type} (cur : Val) (hc : isVDict cur = false)
    (ss : List Key) (hne : ss ≠ []) (v : Val) :
    ∃ e, recursive_update (ε := ε) cur (expand_from_keys ss v) = .error e := by
  cases ss with
  | nil => exact absurd rfl hne
  | cons s ss2 =>
    cases ss2 with
    | nil =>
      rw [expand_from_keys_single]
      exact recursive_update_nonDict cur hc s v .nil
    | cons s2 ss3 =>
      rw [expand_from_keys_cons2]
      exact recursive_update_nonDict cur hc s _ .nil

/-- Merging a fresh single-path expansion into an empty dict yields exactly
the chain. -/
theorem recursive_update_nil {ε : Type} (ss : List Key) (hne : ss ≠ []) (v : Val)
    (hv : isVDict v = false) :
    recursive_update (ε := ε) (.vdict .nil) (expand_from_keys ss v)
      = .ok (.vdict (expand_from_keys ss v)) := by
  induction ss with
  | nil => exact absurd rfl hne
  | cons s ss ih =>
    cases ss with
    | nil =>
      rw [expand_from_keys_single, recursive_update, if_neg (by rw [hv]; exact Bool.false_ne_true)]
      rfl
    | cons s2 ss2 =>
      rw [expand_from_keys_cons2, recursive_update, if_pos (by rw [isVDict])]
      have hd : dgetD Dct.nil s (.vdict .nil) = .vdict .nil := rfl
      rw [hd, recUpdInner, ih (by simp)]
      rfl

/-- `_recursive_update` with a single-path expansion succeeds exactly when
`insertPath` does, and produces that very dict. -/
theorem recursive_update_iff_insertPath {ε : Type} (ss : List Key) (hne : ss ≠ [])
    (v : Val) (hv : isVDict v = false) : ∀ (dd : Dct) (w : Val),
    (recursive_update (ε := ε) (.vdict dd) (expand_from_keys ss v) = .ok w ↔
      ∃ g2, insertPath dd ss v = some g2 ∧ w = .vdict g2) := by
  induction ss with
  | nil => exact absurd rfl hne
  | cons s ss ih =>
    intro dd w
    cases ss with
    | nil =>
      rw [expand_from_keys_single, recursive_update, if_neg (by rw [hv]; exact Bool.false_ne_true)]
      show Except.ok (Val.vdict (dset dd s v)) = .ok w ↔
        ∃ g2, some (dset dd s v) = some g2 ∧ w = .vdict g2
      constructor
      · intro h
        cases h
        exact ⟨dset dd s v, rfl, rfl⟩
      · rintro ⟨g2, hg2, rfl⟩
        cases hg2
        rfl
    | cons s2 ss2 =>
      rw [expand_from_keys_cons2, recursive_update, if_pos (by rw [isVDict])]
      unfold dgetD
      cases hg : dget dd s with
      | none =>
        have hins : insertPath dd (s :: s2 :: ss2) v
            = some (dset dd s (.vdict (expand_from_keys (s2 :: ss2) v))) := by
          rw [insertPath_cons2, hg]
        rw [hins]
        simp only [Option.getD_none]
        rw [recUpdInner, recursive_update_nil (s2 :: ss2) (by simp) v hv]
        show Except.ok (Val.vdict (dset dd s (.vdict (expand_from_keys (s2 :: ss2) v)))) = .ok w
          ↔ _
        constructor
        · intro h
          cases h
          exact ⟨_, rfl, rfl⟩
        · rintro ⟨g2, hg2, rfl⟩
          cases hg2
          rfl
      | some cur =>
        simp only [Option.getD_some]
        by_cases hcd : isVDict cur = true
        · obtain ⟨g, rfl⟩ := (isVDict_iff cur).1 hcd
          have hins : insertPath dd (s :: s2 :: ss2) v
              = (insertPath g (s2 :: ss2) v).map (fun g2 => dset dd s (.vdict g2)) := by
            rw [insertPath_cons2, hg]
          rw [hins, recUpdInner]
          cases hr : recursive_update (ε := ε) (.vdict g) (expand_from_keys (s2 :: ss2) v) with
          | error e =>
            have hnone : insertPath g (s2 :: ss2) v = none := by
              cases hx : insertPath g (s2 :: ss2) v with
              | none => rfl
              | some g2 =>
                have h2 := (ih (by simp) g (.vdict g2)).2 ⟨g2, hx, rfl⟩
                rw [hr] at h2
                cases h2
            rw [hnone]
            show Except.error e = .ok w ↔ ∃ g2, (none : Option Dct) = some g2 ∧ w = .vdict g2
            simp
          | ok inner =>
            obtain ⟨g2, hg2, rfl⟩ := (ih (by simp) g inner).1 hr
            rw [hg2]
            show Except.ok (Val.vdict (dset dd s (.vdict g2))) = .ok w ↔
              ∃ g3, some (dset dd s (.vdict g2)) = some g3 ∧ w = .vdict g3
            constructor
            · intro h
              cases h
              exact ⟨_, rfl, rfl⟩
            · rintro ⟨g3, hg3, rfl⟩
              cases hg3
              rfl
        · have hcd' : isVDict cur = false := by simpa using hcd
          obtain ⟨e, he⟩ := recursive_update_nonDict_expand (ε := ε) cur hcd'
            (s2 :: ss2) (by simp) v
          have hins : insertPath dd (s :: s2 :: ss2) v = none := by
            rw [insertPath_cons2, hg]
            cases cur
            case vdict g => rw [isVDict] at hcd'; cases hcd'
            all_goals rfl
          rw [hins, recUpdInner, he]
          show Except.error e = .ok w ↔ ∃ g2, (none : Option Dct) = some g2 ∧ w = .vdict g2
          simp

/-- Reduction of one dotted `from_flat_dict` iteration. -/
theorem from_flat_go_cons_dotted {ε : Type} (k : Key) (v : Val) (rest exp : Dct)
    (a b1 : Key) (bs : List Key) (hd : hasDot k = true)
    (hsp : splitDot k = a :: b1 :: bs) :
    from_flat_go (ε := ε) (.cons k v rest) exp =
      match dget exp a with
      | none => from_flat_go rest (dset exp a (.vdict (expand_from_keys (b1 :: bs) v)))
      | some cur =>
        match recursive_update cur (expand_from_keys (b1 :: bs) v) with
        | .ok merged => from_flat_go rest (dset exp a merged)
        | .error e => .error e := by
  rw [from_flat_go, if_pos hd, hsp]

/-- A successful `insertPath` describes one `from_flat_dict` iteration. -/
theorem from_flat_go_step {ε : Type} (k : Key) (v : Val) (rest : Dct) (exp exp2 : Dct)
    (hv : isVDict v = false) (hins : insertPath exp (splitDot k) v = some exp2) :
    from_flat_go (ε := ε) (.cons k v rest) exp = from_flat_go rest exp2 := by
  by_cases hd : hasDot k = true
  · obtain ⟨a, b, hsp, hb⟩ := splitDot_long_of_hasDot k hd
    cases b with
    | nil => exact absurd rfl hb
    | cons b1 bs =>
      rw [hsp] at hins
      rw [from_flat_go_cons_dotted k v rest exp a b1 bs hd hsp]
      cases hg : dget exp a with
      | none =>
        rw [insertPath_cons2, hg] at hins
        cases hins
        rfl
      | some cur =>
        by_cases hcd : isVDict cur = true
        · obtain ⟨g, rfl⟩ := (isVDict_iff cur).1 hcd
          rw [insertPath_cons2, hg] at hins
          have hins2 : Option.map (fun g2 => dset exp a (Val.vdict g2))
              (insertPath g (b1 :: bs) v) = some exp2 := hins
          cases hx : insertPath g (b1 :: bs) v with
          | none => rw [hx] at hins2; cases hins2
          | some g2 =>
            rw [hx] at hins2
            cases hins2
            have hr := (recursive_update_iff_insertPath (ε := ε) (b1 :: bs) (by simp) v hv
              g (.vdict g2)).2 ⟨g2, hx, rfl⟩
            show (match recursive_update (ε := ε) (.vdict g) (expand_from_keys (b1 :: bs) v) with
              | Except.ok merged => from_flat_go rest (dset exp a merged)
              | Except.error e => (Except.error e : Except (Exn ε) Dct))
              = from_flat_go rest (dset exp a (.vdict g2))
            rw [hr]
        · have hcd' : isVDict cur = false := by simpa using hcd
          rw [insertPath_cons2, hg] at hins
          exfalso
          have hins2 : (none : Option Dct) = some exp2 := by
            refine Eq.trans ?_ hins
            cases cur
            case vdict g => rw [isVDict] at hcd'; cases hcd'
            all_goals rfl
          cases hins2
  · have hd' : hasDot k = false := by simpa using hd
    rw [splitDot_of_noDot k hd', insertPath_single] at hins
    cases hins
    rw [from_flat_go, if_neg (by rw [hd']; exact Bool.false_ne_true)]

/-- Conversely, a successful `from_flat_dict` iteration yields a successful
`insertPath`. -/
theorem from_flat_go_step_ok {ε : Type} (k : Key) (v : Val) (rest : Dct) (exp : Dct)
    (R : Dct) (hv : isVDict v = false)
    (hok : from_flat_go (ε := ε) (.cons k v rest) exp = .ok R) :
    ∃ exp2, insertPath exp (splitDot k) v = some exp2 ∧
      from_flat_go (ε := ε) rest exp2 = .ok R := by
  by_cases hd : hasDot k = true
  · obtain ⟨a, b, hsp, hb⟩ := splitDot_long_of_hasDot k hd
    cases b with
    | nil => exact absurd rfl hb
    | cons b1 bs =>
      rw [from_flat_go_cons_dotted k v rest exp a b1 bs hd hsp] at hok
      rw [hsp]
      cases hg : dget exp a with
      | none =>
        rw [hg] at hok
        refine ⟨_, ?_, hok⟩
        rw [insertPath_cons2, hg]
      | some cur =>
        rw [hg] at hok
        by_cases hcd : isVDict cur = true
        · obtain ⟨g, rfl⟩ := (isVDict_iff cur).1 hcd
          have hok2 : (match recursive_update (ε := ε) (.vdict g)
                (expand_from_keys (b1 :: bs) v) with
              | Except.ok merged => from_flat_go rest (dset exp a merged)
              | Except.error e => (Except.error e : Except (Exn ε) Dct))
              = Except.ok R := hok
          cases hr : recursive_update (ε := ε) (.vdict g) (expand_from_keys (b1 :: bs) v) with
          | error e => rw [hr] at hok2; cases hok2
          | ok merged =>
            rw [hr] at hok2
            obtain ⟨g2, hg2, rfl⟩ := (recursive_update_iff_insertPath (ε := ε)
              (b1 :: bs) (by simp) v hv g merged).1 hr
            refine ⟨dset exp a (.vdict g2), ?_, hok2⟩
            rw [insertPath_cons2, hg]
            show Option.map (fun g3 => dset exp a (Val.vdict g3)) (insertPath g (b1 :: bs) v)
              = some (dset exp a (.vdict g2))
            rw [hg2]
            rfl
        · have hcd' : isVDict cur = false := by simpa using hcd
          obtain ⟨e, he⟩ := recursive_update_nonDict_expand (ε := ε) cur hcd'
            (b1 :: bs) (by simp) v
          have hok2 : (match recursive_update (ε := ε) cur
                (expand_from_keys (b1 :: bs) v) with
              | Except.ok merged => from_flat_go rest (dset exp a merged)
              | Except.error e => (Except.error e : Except (Exn ε) Dct))
              = Except.ok R := hok
          rw [he] at hok2
          cases hok2
  · have hd' : hasDot k = false := by simpa using hd
    rw [from_flat_go, if_neg (by rw [hd']; exact Bool.false_ne_true)] at hok
    rw [splitDot_of_noDot k hd', insertPath_single]
    exact ⟨_, rfl, hok⟩

/-- Inserting into an empty accumulator builds exactly the single chain. -/
theorem insertPath_nil_acc (ss : List Key) (v : Val) :
    insertPath .nil ss v = some (expand_from_keys ss v) := by
  cases ss with
  | nil => rfl
  | cons s ss2 =>
    cases ss2 with
    | nil => rfl
    | cons s2 ss3 => rfl

/-- Processing a block of keys all prefixed with `k ++ "."` is processing
the unprefixed block inside the `k` subtree. -/
theorem from_flat_go_block {ε : Type} (B : Dct) : ∀ (k : Key) (rest' exp E E' : Dct),
    hasDot k = false → valsND B = true →
    (dget exp k = some (.vdict E) ∨ (dget exp k = none ∧ E = .nil ∧ B ≠ .nil)) →
    from_flat_go (ε := ε) B E = .ok E' →
    from_flat_go (ε := ε) (dappend (mapKeysPre k B) rest') exp
      = from_flat_go rest' (dset exp k (.vdict E')) := by
  induction B using dctIndT with
  | hnil =>
    intro k rest' exp E E' hk _ hinv hfg
    cases hfg
    rcases hinv with hinv | ⟨_, _, hne⟩
    · rw [dset_present_same _ _ _ hinv]
      rfl
    · exact absurd rfl hne
  | hcons s v B' ih =>
    intro k rest' exp E E' hk hvals hinv hfg
    obtain ⟨hv, hvB'⟩ : isVDict v = false ∧ valsND B' = true := by
      rw [valsND, Bool.and_eq_true, Bool.not_eq_true'] at hvals
      exact hvals
    obtain ⟨E1, hins, hfg'⟩ := from_flat_go_step_ok s v B' E E' hv hfg
    obtain ⟨t, ts, hts⟩ : ∃ t ts, splitDot s = t :: ts := by
      cases hx : splitDot s with
      | nil => exact absurd hx (splitDot_ne_nil s)
      | cons t ts => exact ⟨t, ts, rfl⟩
    have hsplit : splitDot (k ++ '.' :: s) = k :: t :: ts := by
      rw [splitDot_append _ _ hk, hts]
    have hins2 : insertPath exp (splitDot (k ++ '.' :: s)) v
        = some (dset exp k (.vdict E1)) := by
      rw [hsplit, insertPath_cons2]
      rcases hinv with hinv | ⟨hnone, hE, _⟩
      · rw [hinv]
        show Option.map (fun g2 => dset exp k (Val.vdict g2)) (insertPath E (t :: ts) v)
          = some (dset exp k (.vdict E1))
        rw [hts] at hins
        rw [hins]
        rfl
      · rw [hnone]
        subst hE
        rw [insertPath_nil_acc, hts] at hins
        cases hins
        rfl
    show from_flat_go (ε := ε)
      (.cons (k ++ '.' :: s) v (dappend (mapKeysPre k B') rest')) exp = _
    rw [from_flat_go_step (ε := ε) _ v _ exp _ hv hins2]
    rw [ih k rest' (dset exp k (.vdict E1)) E1 E' hk hvB'
      (Or.inl (dget_dset_self _ _ _)) hfg']
    rw [dset_dset_same]

/-- Expanding the flat image of a well-formed nested map restores the map
(appended to whatever disjoint accumulator expansion starts from). -/
theorem expand_flatSpec {ε : Type} (C : Dct) : ∀ exp0 : Dct,
    deepOK C = true → noEmptyDeep C = true →
    (∀ k2 ∈ dkeys C, dmem exp0 k2 = false) →
    from_flat_go (ε := ε) (flatSpec C none) exp0 = .ok (dappend exp0 C) := by
  induction C using dctInd with
  | hnil => intro exp0 _ _ _; simp [flatSpec, from_flat_go]
  | hcons k v rest ihg ihr =>
    intro exp0 hok hne hfresh
    obtain ⟨hdot, hmem, hV, hrest⟩ := (deepOK_cons_iff _ _ _).1 hok
    obtain ⟨hnv, hnrest⟩ := (noEmptyDeep_cons_iff _ _ _).1 hne
    have hk0 : dmem exp0 k = false := hfresh k (by simp [dkeys])
    have hfresh' : ∀ k2 ∈ dkeys rest,
        dmem (dappend exp0 (.cons k v .nil)) k2 = false := by
      intro k2 hk2
      have hne2 : k2 ≠ k := by
        intro he
        rw [dmem_false_iff] at hmem
        exact hmem (he ▸ hk2)
      rw [dmem_dappend, hfresh k2 (by simp [dkeys, hk2])]
      simp [dmem, dget, hne2]
    by_cases hvd : isVDict v = true
    · obtain ⟨g, rfl⟩ := (isVDict_iff v).1 hvd
      obtain ⟨hg0, hgne⟩ := (noEmptyV_dict_iff g).1 hnv
      have hgok : deepOK g = true := by rw [deepOKV] at hV; exact hV
      have hinner : from_flat_go (ε := ε) (flatSpec g none) .nil = .ok g := by
        rw [ihg g rfl .nil hgok hgne (fun k2 _ => rfl)]
        rfl
      rw [flatSpec, if_pos hvd, flatSpecV]
      rw [show joinPre none k = k from rfl, flatSpec_pre g k]
      rw [from_flat_go_block (ε := ε) (flatSpec g none) k (flatSpec rest none) exp0 .nil g
        hdot (flatSpec_valsND g none)
        (Or.inr ⟨(dmem_eq_false_iff_dget _ _).1 hk0, rfl, flatSpec_ne_nil g hgne hg0 none⟩)
        hinner]
      rw [dset_fresh _ _ _ hk0]
      have hfresh2 : ∀ k2 ∈ dkeys rest,
          dmem (dappend exp0 (.cons k (Val.vdict g) .nil)) k2 = false := by
        intro k2 hk2
        have hne2 : k2 ≠ k := by
          intro he
          rw [dmem_false_iff] at hmem
          exact hmem (he ▸ hk2)
        rw [dmem_dappend, hfresh k2 (by simp [dkeys, hk2])]
        simp [dmem, dget, hne2]
      rw [ihr _ hrest hnrest hfresh2, dappend_assoc]
      rfl
    · rw [flatSpec, if_neg hvd]
      rw [show joinPre none k = k from rfl]
      have hins : insertPath exp0 (splitDot k) v = some (dset exp0 k v) := by
        rw [splitDot_of_noDot k hdot, insertPath_single]
      rw [from_flat_go_step (ε := ε) k v _ exp0 _ (by simpa using hvd) hins]
      rw [dset_fresh _ _ _ hk0]
      rw [ihr _ hrest hnrest hfresh', dappend_assoc]
      rfl

/-- Full round trip: expanding the flattening of a well-formed nested map's
namespace restores both the namespace and the map. -/
theorem expand_flatten_round_trip {ε : Type} (C : Dct) (h1 : noCollide C = true)
    (h2 : deepOK C = true) (h3 : noEmptyDeep C = true) :
    from_flat_dict (ε := ε) (to_flat_dict (from_dictD C)) = .ok (from_dictD C)
      ∧ to_dict (from_dictD C) = C := by
  have hP1 : to_dict (from_dictD C) = C := to_dict_from_dict C h1
  have hflat : to_flat_dict (from_dictD C) = flatSpec C none := by
    unfold to_flat_dict
    rw [hP1, flatten_dict_eq C h2 none]
  have hexp : from_flat_go (ε := ε) (flatSpec C none) .nil = .ok C := by
    rw [expand_flatSpec C .nil h2 h3 (fun k2 _ => rfl)]
    rfl
  constructor
  · unfold from_flat_dict
    rw [hflat, hexp]
  · exact hP1

/-! ## Leaf lookup along a path -/

/-- The leaf value reached by following a split path through nested dicts
(`none` unless the path ends at a non-dict value). -/
def leafGet : Dct → List Key → Option Val
  | _, [] => none
  | d, [s] =>
    match dget d s with
    | some v => if isVDict v then none else some v
    | none => none
  | d, s :: ss =>
    match dget d s with
    | some (.vdict g) => leafGet g ss
    | _ => none

theorem leafGet_nil_path (d : Dct) : leafGet d [] = none := rfl

theorem leafGet_single (d : Dct) (s : Key) :
    leafGet d [s] = match dget d s with
      | some v => if isVDict v then none else some v
      | none => none := rfl

theorem leafGet_cons2 (d : Dct) (s s2 : Key) (ss : List Key) :
    leafGet d (s :: s2 :: ss) = match dget d s with
      | some (.vdict g) => leafGet g (s2 :: ss)
      | _ => none := rfl

@[simp] theorem leafGet_nil_dct (r : List Key) : leafGet .nil r = none := by
  cases r with
  | nil => rfl
  | cons s ss => cases ss with
    | nil => rfl
    | cons s2 ss2 => rfl

/-- A path strictly below another: `anc` extended by a nonempty `t`. -/
def properAnc (anc r : List Key) : Prop := ∃ t, t ≠ [] ∧ anc ++ t = r

theorem nonDict_deepOKV (v : Val) (h : isVDict v = false) : deepOKV v = true := by
  cases v
  case vdict g => rw [isVDict] at h; cases h
  all_goals rfl

theorem nonDict_noEmptyV (v : Val) (h : isVDict v = false) : noEmptyV v = true := by
  cases v
  case vdict g => rw [isVDict] at h; cases h
  all_goals rfl

theorem deepOK_dset (D : Dct) (s : Key) (v0 : Val) (hD : deepOK D = true)
    (hs : hasDot s = false) (hv : deepOKV v0 = true) :
    deepOK (dset D s v0) = true := by
  induction D using dctIndT with
  | hnil =>
    show deepOK (.cons s v0 .nil) = true
    rw [deepOK]
    simp [hs, hv, dmem, dget, deepOK]
  | hcons k w rest ih =>
    obtain ⟨h1, h2, h3, h4⟩ := (deepOK_cons_iff _ _ _).1 hD
    by_cases he : s = k
    · subst he
      rw [show dset (.cons s w rest) s v0 = .cons s v0 rest from by simp [dset]]
      rw [deepOK_cons_iff]
      exact ⟨h1, h2, hv, h4⟩
    · rw [show dset (.cons k w rest) s v0 = .cons k w (dset rest s v0) from by
        simp [dset, he]]
      rw [deepOK_cons_iff]
      refine ⟨h1, ?_, h3, ih h4⟩
      rw [dmem_dset_ne _ _ _ _ (fun hx => he hx.symm)]
      exact h2

theorem noEmpty_dset (D : Dct) (s : Key) (v0 : Val) (hD : noEmptyDeep D = true)
    (hv : noEmptyV v0 = true) : noEmptyDeep (dset D s v0) = true := by
  induction D using dctIndT with
  | hnil =>
    show noEmptyDeep (.cons s v0 .nil) = true
    rw [noEmptyDeep_cons_iff]
    exact ⟨hv, rfl⟩
  | hcons k w rest ih =>
    obtain ⟨h1, h2⟩ := (noEmptyDeep_cons_iff _ _ _).1 hD
    by_cases he : s = k
    · subst he
      rw [show dset (.cons s w rest) s v0 = .cons s v0 rest from by simp [dset]]
      rw [noEmptyDeep_cons_iff]
      exact ⟨hv, h2⟩
    · rw [show dset (.cons k w rest) s v0 = .cons k w (dset rest s v0) from by
        simp [dset, he]]
      rw [noEmptyDeep_cons_iff]
      exact ⟨h1, ih h2⟩

theorem expand_from_keys_ne_nil (ss : List Key) (hne : ss ≠ []) (v : Val) :
    expand_from_keys ss v ≠ .nil := by
  cases ss with
  | nil => exact absurd rfl hne
  | cons s ss2 => cases ss2 with
    | nil => simp [expand_from_keys_single]
    | cons s2 ss3 => simp [expand_from_keys_cons2]

theorem deepOK_expand (ss : List Key) (v0 : Val)
    (hss : ∀ piece ∈ ss, hasDot piece = false) (hv : deepOKV v0 = true) :
    deepOK (expand_from_keys ss v0) = true := by
  induction ss with
  | nil => rfl
  | cons s ss2 ih =>
    cases ss2 with
    | nil =>
      rw [expand_from_keys_single, deepOK_cons_iff]
      exact ⟨hss s (by simp), rfl, hv, rfl⟩
    | cons s2 ss3 =>
      rw [expand_from_keys_cons2, deepOK_cons_iff]
      refine ⟨hss s (by simp), rfl, ?_, rfl⟩
      rw [deepOKV]
      exact ih (fun p hp => hss p (by simp [hp]))

theorem noEmpty_expand (ss : List Key) (v0 : Val) (hv : noEmptyV v0 = true) :
    noEmptyDeep (expand_from_keys ss v0) = true := by
  induction ss with
  | nil => rfl
  | cons s ss2 ih =>
    cases ss2 with
    | nil =>
      rw [expand_from_keys_single, noEmptyDeep_cons_iff]
      exact ⟨hv, rfl⟩
    | cons s2 ss3 =>
      rw [expand_from_keys_cons2, noEmptyDeep_cons_iff]
      refine ⟨?_, rfl⟩
      rw [noEmptyV_dict_iff]
      exact ⟨expand_from_keys_ne_nil _ (by simp) _, ih⟩

theorem leafGet_cons2_of_nonDict (d : Dct) (s s2 : Key) (ss : List Key) (v : Val)
    (hg : dget d s = some v) (hv : isVDict v = false) :
    leafGet d (s :: s2 :: ss) = none := by
  rw [leafGet_cons2, hg]
  cases v
  case vdict g => rw [isVDict] at hv; cases hv
  all_goals rfl

/-- Leaf lookup inside a freshly expanded single chain. -/
theorem leafGet_expand (ss : List Key) (hne : ss ≠ []) (v0 : Val)
    (hv : isVDict v0 = false) :
    ∀ r, leafGet (expand_from_keys ss v0) r = if r = ss then some v0 else none := by
  induction ss with
  | nil => exact absurd rfl hne
  | cons s ss2 ih =>
    intro r
    cases ss2 with
    | nil =>
      rw [expand_from_keys_single]
      cases r with
      | nil => simp [leafGet_nil_path]
      | cons s' r2 =>
        cases r2 with
        | nil =>
          rw [leafGet_single]
          by_cases he : s' = s
          · subst he
            rw [dget_cons_self]
            simp [hv]
          · rw [dget_cons_ne _ _ _ _ he, dget_nil]
            simp [he]
        | cons r1 r3 =>
          by_cases he : s' = s
          · subst he
            rw [leafGet_cons2_of_nonDict _ _ _ _ v0 (dget_cons_self _ _ _) hv]
            simp
          · rw [leafGet_cons2, dget_cons_ne _ _ _ _ he, dget_nil]
            simp [he]
    | cons s2 ss3 =>
      rw [expand_from_keys_cons2]
      cases r with
      | nil => simp [leafGet_nil_path]
      | cons s' r2 =>
        cases r2 with
        | nil =>
          rw [leafGet_single]
          by_cases he : s' = s
          · subst he
            rw [dget_cons_self]
            simp [isVDict]
          · rw [dget_cons_ne _ _ _ _ he, dget_nil]
            simp [he]
        | cons r1 r3 =>
          by_cases he : s' = s
          · subst he
            rw [leafGet_cons2, dget_cons_self]
            show leafGet (expand_from_keys (s2 :: ss3) v0) (r1 :: r3) = _
            rw [ih (by simp) (r1 :: r3)]
            by_cases he2 : r1 :: r3 = s2 :: ss3
            · simp [he2]
            · simp [he2]
          · rw [leafGet_cons2, dget_cons_ne _ _ _ _ he, dget_nil]
            simp [he]

/-- The full effect of one path insertion: when no existing leaf sits on a
proper ancestor of the path and no leaf lies strictly below it, insertion
succeeds, preserves well-formedness, and changes exactly the one leaf at
the path. -/
theorem insertPath_char (p : List Key) : ∀ (D : Dct) (v0 : Val),
    p ≠ [] → (∀ piece ∈ p, hasDot piece = false) → isVDict v0 = false →
    deepOK D = true → noEmptyDeep D = true →
    (∀ r w, properAnc r p → r ≠ [] → leafGet D r ≠ some w) →
    (∀ r w, properAnc p r → leafGet D r ≠ some w) →
    ∃ D2, insertPath D p v0 = some D2 ∧ D2 ≠ .nil ∧
      deepOK D2 = true ∧ noEmptyDeep D2 = true ∧
      (∀ r, leafGet D2 r = if r = p then some v0 else leafGet D r) := by
  induction p with
  | nil => intro D v0 hp _ _ _ _ _ _; exact absurd rfl hp
  | cons s p2 ih =>
    intro D v0 _ hpieces hv hok hne H1 H2
    cases p2 with
    | nil =>
      refine ⟨dset D s v0, insertPath_single D s v0, dset_ne_nil _ _ _,
        deepOK_dset D s v0 hok (hpieces s (by simp)) (nonDict_deepOKV v0 hv),
        noEmpty_dset D s v0 hne (nonDict_noEmptyV v0 hv), ?_⟩
      intro r
      cases r with
      | nil => simp [leafGet_nil_path]
      | cons s' r2 =>
        by_cases he : s' = s
        · subst he
          cases r2 with
          | nil =>
            rw [leafGet_single, dget_dset_self]
            show (if isVDict v0 = true then none else some v0)
              = if ([s'] : List Key) = [s'] then some v0 else leafGet D [s']
            rw [hv]
            simp
          | cons r1 r3 =>
            rw [leafGet_cons2_of_nonDict _ _ _ _ v0 (dget_dset_self _ _ _) hv]
            rw [if_neg (by simp)]
            cases hx : leafGet D (s' :: r1 :: r3) with
            | none => rfl
            | some w => exact absurd hx (H2 _ w ⟨r1 :: r3, by simp, rfl⟩)
        · have hgg : dget (dset D s v0) s' = dget D s' := dget_dset_ne D s s' v0 he
          rw [if_neg (by simp [he])]
          cases r2 with
          | nil => rw [leafGet_single, leafGet_single, hgg]
          | cons r1 r3 => rw [leafGet_cons2, leafGet_cons2, hgg]
    | cons q qs =>
      cases hg : dget D s with
      | none =>
        refine ⟨dset D s (.vdict (expand_from_keys (q :: qs) v0)), ?_, dset_ne_nil _ _ _,
          ?_, ?_, ?_⟩
        · rw [insertPath_cons2, hg]
        · refine deepOK_dset D s _ hok (hpieces s (by simp)) ?_
          rw [deepOKV]
          exact deepOK_expand (q :: qs) v0
            (fun piece hp => hpieces piece (by simp [hp])) (nonDict_deepOKV v0 hv)
        · refine noEmpty_dset D s _ hne ?_
          rw [noEmptyV_dict_iff]
          exact ⟨expand_from_keys_ne_nil _ (by simp) _,
            noEmpty_expand _ _ (nonDict_noEmptyV v0 hv)⟩
        · intro r
          cases r with
          | nil => simp [leafGet_nil_path]
          | cons s' r2 =>
            by_cases he : s' = s
            · subst he
              cases r2 with
              | nil =>
                have hL : leafGet (dset D s'
                    (.vdict (expand_from_keys (q :: qs) v0))) [s'] = none := by
                  rw [leafGet_single, dget_dset_self]
                  rfl
                have hR : leafGet D [s'] = none := by
                  rw [leafGet_single, hg]
                rw [hL, hR, if_neg (by simp)]
              | cons r1 r3 =>
                have hL : leafGet (dset D s'
                      (.vdict (expand_from_keys (q :: qs) v0))) (s' :: r1 :: r3)
                    = leafGet (expand_from_keys (q :: qs) v0) (r1 :: r3) := by
                  rw [leafGet_cons2, dget_dset_self]
                have hR : leafGet D (s' :: r1 :: r3) = none := by
                  rw [leafGet_cons2, hg]
                rw [hL, leafGet_expand (q :: qs) (by simp) v0 hv (r1 :: r3), hR]
                by_cases he2 : r1 :: r3 = q :: qs
                · simp [he2]
                · simp [he2]
            · have hgg : dget (dset D s (.vdict (expand_from_keys (q :: qs) v0))) s'
                  = dget D s' := dget_dset_ne D s s' _ he
              rw [if_neg (by simp [he])]
              cases r2 with
              | nil => rw [leafGet_single, leafGet_single, hgg]
              | cons r1 r3 => rw [leafGet_cons2, leafGet_cons2, hgg]
      | some cur =>
        by_cases hcd : isVDict cur = true
        · obtain ⟨g, rfl⟩ := (isVDict_iff cur).1 hcd
          have hgok : deepOK g = true := by
            have := deepOK_dget D s _ hok hg
            rwa [deepOKV] at this
          obtain ⟨hg0, hgne⟩ : g ≠ .nil ∧ noEmptyDeep g = true := by
            rw [← noEmptyV_dict_iff]
            exact noEmpty_dget D s _ hne hg
          have hDg : ∀ r1 : Key, ∀ r3 : List Key,
              leafGet D (s :: r1 :: r3) = leafGet g (r1 :: r3) := by
            intro r1 r3
            rw [leafGet_cons2, hg]
          have H1g : ∀ r w, properAnc r (q :: qs) → r ≠ [] → leafGet g r ≠ some w := by
            rintro r w ⟨t, ht, hrt⟩ hrne hx
            cases r with
            | nil => exact absurd rfl hrne
            | cons r1 r3 =>
              refine H1 (s :: r1 :: r3) w ⟨t, ht, ?_⟩ (by simp) ?_
              · show s :: (r1 :: r3 ++ t) = s :: q :: qs
                rw [hrt]
              · rw [hDg r1 r3]
                exact hx
          have H2g : ∀ r w, properAnc (q :: qs) r → leafGet g r ≠ some w := by
            rintro r w ⟨t, ht, hrt⟩ hx
            cases r with
            | nil => cases hrt
            | cons r1 r3 =>
              refine H2 (s :: r1 :: r3) w ⟨t, ht, ?_⟩ ?_
              · show s :: (q :: qs ++ t) = s :: r1 :: r3
                rw [hrt]
              · rw [hDg r1 r3]
                exact hx
          obtain ⟨g2, hins, hg2ne, hg2ok, hg2em, hchar⟩ := ih g v0 (by simp)
            (fun piece hp => hpieces piece (by simp [hp])) hv hgok hgne H1g H2g
          refine ⟨dset D s (.vdict g2), ?_, dset_ne_nil _ _ _, ?_, ?_, ?_⟩
          · rw [insertPath_cons2, hg]
            show Option.map (fun g2 => dset D s (Val.vdict g2)) (insertPath g (q :: qs) v0)
              = some (dset D s (.vdict g2))
            rw [hins]
            rfl
          · refine deepOK_dset D s _ hok (hpieces s (by simp)) ?_
            rw [deepOKV]
            exact hg2ok
          · refine noEmpty_dset D s _ hne ?_
            rw [noEmptyV_dict_iff]
            exact ⟨hg2ne, hg2em⟩
          · intro r
            cases r with
            | nil => simp [leafGet_nil_path]
            | cons s' r2 =>
              by_cases he : s' = s
              · subst he
                cases r2 with
                | nil =>
                  have hL : leafGet (dset D s' (.vdict g2)) [s'] = none := by
                    rw [leafGet_single, dget_dset_self]
                    rfl
                  have hR : leafGet D [s'] = none := by
                    rw [leafGet_single, hg]
                    rfl
                  rw [hL, hR, if_neg (by simp)]
                | cons r1 r3 =>
                  have hL : leafGet (dset D s' (.vdict g2)) (s' :: r1 :: r3)
                      = leafGet g2 (r1 :: r3) := by
                    rw [leafGet_cons2, dget_dset_self]
                  rw [hL, hchar (r1 :: r3), hDg r1 r3]
                  by_cases he2 : r1 :: r3 = q :: qs
                  · simp [he2]
                  · simp [he2]
              · have hgg : dget (dset D s (.vdict g2)) s' = dget D s' :=
                  dget_dset_ne D s s' _ he
                rw [if_neg (by simp [he])]
                cases r2 with
                | nil => rw [leafGet_single, leafGet_single, hgg]
                | cons r1 r3 => rw [leafGet_cons2, leafGet_cons2, hgg]
        · exfalso
          have hcd' : isVDict cur = false := by simpa using hcd
          have hleaf : leafGet D [s] = some cur := by
            rw [leafGet_single, hg]
            show (if isVDict cur = true then none else some cur) = some cur
            rw [hcd']
            simp
          exact H1 [s] cur ⟨q :: qs, by simp, rfl⟩ (by simp) hleaf

/-! ## Separated flat keys and the expansion loop invariant -/

/-- Two split paths "separate" when at their first divergence the segments
differ even after trailing-underscore stripping.  Equal paths and paths
comparable under the ancestor order never separate. -/
def sepPaths : List Key → List Key → Bool
  | [], _ => false
  | _ :: _, [] => false
  | a :: as, b :: bs => if a = b then sepPaths as bs else !(rstripU a == rstripU b)

theorem sepPaths_symm (a : List Key) : ∀ b, sepPaths a b = sepPaths b a := by
  induction a with
  | nil => intro b; cases b <;> rfl
  | cons x as ih =>
    intro b
    cases b with
    | nil => rfl
    | cons y bs =>
      by_cases he : x = y
      · subst he
        rw [sepPaths, sepPaths, if_pos rfl, if_pos rfl, ih bs]
      · rw [sepPaths, sepPaths, if_neg he, if_neg (fun hx => he hx.symm)]
        by_cases hr : rstripU x = rstripU y
        · simp [hr]
        · have hr2 : ¬ rstripU y = rstripU x := fun hx => hr hx.symm
          simp [hr, hr2]

theorem sepPaths_anc_false (a : List Key) : ∀ t, sepPaths a (a ++ t) = false := by
  induction a with
  | nil => intro t; rfl
  | cons x as ih => intro t; rw [List.cons_append, sepPaths, if_pos rfl, ih t]

theorem sepPaths_refl_false (a : List Key) : sepPaths a a = false := by
  have := sepPaths_anc_false a []
  rwa [List.append_nil] at this

/-- Pairwise separation of the keys of a flat map. -/
def SepKeys (l : List Key) : Prop :=
  l.Pairwise (fun k1 k2 => sepPaths (splitDot k1) (splitDot k2) = true)

theorem SepKeys_both (l : List Key) (h : SepKeys l) :
    ∀ a ∈ l, ∀ b ∈ l, a ≠ b → sepPaths (splitDot a) (splitDot b) = true := by
  intro a ha b hb hne
  have hsym : Symmetric (fun k1 k2 : Key => sepPaths (splitDot k1) (splitDot k2) = true) := by
    intro x y hxy
    rw [sepPaths_symm]
    exact hxy
  exact h.forall hsym ha hb hne

theorem dget_dappend_single_ne (P : Dct) (q0 q : Key) (v0 : Val) (h : q ≠ q0) :
    dget (dappend P (.cons q0 v0 .nil)) q = dget P q := by
  rw [dget_dappend]
  cases hx : dget P q with
  | some w => simp [Option.orElse]
  | none => simp [Option.orElse, dget, h]

/-- The expansion loop of `from_flat_dict`, on separated flat keys with
non-dict values, succeeds and builds exactly the tree whose leaves are the
processed entries. -/
theorem from_flat_loop {ε : Type} (F : Dct) : ∀ (P exp : Dct),
    valsND F = true →
    SepKeys (dkeys P ++ dkeys F) →
    deepOK exp = true → noEmptyDeep exp = true →
    (∀ q : Key, leafGet exp (splitDot q) = dget P q) →
    (∀ r w, leafGet exp r = some w → ∃ q ∈ dkeys P, splitDot q = r) →
    ∃ D, from_flat_go (ε := ε) F exp = .ok D ∧ deepOK D = true ∧ noEmptyDeep D = true ∧
      (∀ q : Key, leafGet D (splitDot q) = dget (dappend P F) q) ∧
      (∀ r w, leafGet D r = some w → ∃ q ∈ dkeys (dappend P F), splitDot q = r) := by
  induction F using dctIndT with
  | hnil =>
    intro P exp _ _ hok hne inv3 inv4
    refine ⟨exp, rfl, hok, hne, ?_, ?_⟩
    · intro q; rw [dappend_nil]; exact inv3 q
    · intro r w hx; rw [dappend_nil]; exact inv4 r w hx
  | hcons q0 v0 F2 ih =>
    intro P exp hvals hsep hok hne inv3 inv4
    obtain ⟨hv0, hvF2⟩ : isVDict v0 = false ∧ valsND F2 = true := by
      rw [valsND, Bool.and_eq_true, Bool.not_eq_true'] at hvals
      exact hvals
    have hkeysF : dkeys (.cons q0 v0 F2) = q0 :: dkeys F2 := rfl
    have hcross := (List.pairwise_append.1 hsep).2.2
    have hq0notP : ¬ q0 ∈ dkeys P := by
      intro hx
      have hr := hcross q0 hx q0 (by rw [hkeysF]; simp)
      rw [sepPaths_refl_false] at hr
      cases hr
    have H1 : ∀ r w, properAnc r (splitDot q0) → r ≠ [] → leafGet exp r ≠ some w := by
      intro r w hanc _ hx
      obtain ⟨q2, hq2P, hq2r⟩ := inv4 r w hx
      have hr := hcross q2 hq2P q0 (by rw [hkeysF]; simp)
      rw [hq2r] at hr
      obtain ⟨t, _, hrt⟩ := hanc
      rw [← hrt, sepPaths_anc_false] at hr
      cases hr
    have H2 : ∀ r w, properAnc (splitDot q0) r → leafGet exp r ≠ some w := by
      intro r w hanc hx
      obtain ⟨q2, hq2P, hq2r⟩ := inv4 r w hx
      have hr := hcross q2 hq2P q0 (by rw [hkeysF]; simp)
      rw [hq2r] at hr
      obtain ⟨t, _, hrt⟩ := hanc
      rw [← hrt, sepPaths_symm, sepPaths_anc_false] at hr
      cases hr
    obtain ⟨D1, hins, _, hD1ok, hD1em, hchar⟩ := insertPath_char (splitDot q0) exp v0
      (splitDot_ne_nil q0) (splitDot_pieces q0) hv0 hok hne H1 H2
    have hstep := from_flat_go_step (ε := ε) q0 v0 F2 exp D1 hv0 hins
    have inv3b : ∀ q : Key, leafGet D1 (splitDot q)
        = dget (dappend P (.cons q0 v0 .nil)) q := by
      intro q
      rw [hchar (splitDot q)]
      by_cases he : q = q0
      · subst he
        rw [if_pos rfl]
        rw [dget_dappend_right _ _ _ ((dmem_false_iff _ _).2 hq0notP)]
        rw [dget_cons_self]
      · rw [if_neg (fun hx => he (splitDot_inj _ _ hx)), inv3 q,
          dget_dappend_single_ne P q0 q v0 he]
    have inv4b : ∀ r w, leafGet D1 r = some w →
        ∃ q ∈ dkeys (dappend P (.cons q0 v0 .nil)), splitDot q = r := by
      intro r w hx
      rw [hchar r] at hx
      by_cases he : r = splitDot q0
      · exact ⟨q0, by rw [dkeys_dappend]; simp [dkeys], he.symm⟩
      · rw [if_neg he] at hx
        obtain ⟨q, hq, hq2⟩ := inv4 r w hx
        exact ⟨q, by rw [dkeys_dappend]; simp [hq], hq2⟩
    have hsepb : SepKeys (dkeys (dappend P (.cons q0 v0 .nil)) ++ dkeys F2) := by
      rw [dkeys_dappend]
      show SepKeys ((dkeys P ++ [q0]) ++ dkeys F2)
      rw [List.append_assoc]
      exact hsep
    obtain ⟨D, hgo, hDok, hDem, hinv3, hinv4⟩ := ih (dappend P (.cons q0 v0 .nil)) D1
      hvF2 hsepb hD1ok hD1em inv3b inv4b
    refine ⟨D, ?_, hDok, hDem, ?_, ?_⟩
    · rw [hstep]; exact hgo
    · intro q
      have h := hinv3 q
      rwa [dappend_assoc] at h
    · intro r w hx
      obtain ⟨q, hq, hq2⟩ := hinv4 r w hx
      refine ⟨q, ?_, hq2⟩
      rwa [dappend_assoc] at hq

/-! ## Collision-freedom of separated expansion trees -/

theorem noCollideV_nonDict (k : Key) (v : Val) (h : isVDict v = false) :
    noCollideV k v = true := by
  cases v
  case vdict g => rw [isVDict] at h; cases h
  all_goals rfl

/-- Every nonempty well-formed tree has at least one leaf. -/
theorem leafGet_exists (g : Dct) (hok : deepOK g = true) (hne : noEmptyDeep g = true)
    (h0 : g ≠ .nil) : ∃ r w, leafGet g r = some w := by
  induction g using dctInd with
  | hnil => exact absurd rfl h0
  | hcons k v rest ihg _ =>
    obtain ⟨_, _, hV, _⟩ := (deepOK_cons_iff _ _ _).1 hok
    obtain ⟨hnv, _⟩ := (noEmptyDeep_cons_iff _ _ _).1 hne
    by_cases hvd : isVDict v = true
    · obtain ⟨g2, rfl⟩ := (isVDict_iff v).1 hvd
      obtain ⟨hg0, hg2ne⟩ := (noEmptyV_dict_iff g2).1 hnv
      obtain ⟨r, w, hr⟩ := ihg g2 rfl (by rw [deepOKV] at hV; exact hV) hg2ne hg0
      cases r with
      | nil => rw [leafGet_nil_path] at hr; cases hr
      | cons r1 r3 =>
        refine ⟨k :: r1 :: r3, w, ?_⟩
        rw [leafGet_cons2, dget_cons_self]
        exact hr
    · refine ⟨[k], v, ?_⟩
      rw [leafGet_single, dget_cons_self]
      show (if isVDict v = true then none else some v) = some v
      rw [if_neg (by simpa using hvd)]

theorem leafGet_at_key (d : Dct) (k : Key) (v : Val) (hok : deepOK d = true)
    (hne : noEmptyDeep d = true) (hg : dget d k = some v) :
    ∃ tl w, leafGet d (k :: tl) = some w := by
  by_cases hvd : isVDict v = true
  · obtain ⟨g, rfl⟩ := (isVDict_iff v).1 hvd
    have hgok : deepOK g = true := by
      have := deepOK_dget d k _ hok hg
      rwa [deepOKV] at this
    obtain ⟨hg0, hgne⟩ := (noEmptyV_dict_iff g).1 (noEmpty_dget d k _ hne hg)
    obtain ⟨r, w, hr⟩ := leafGet_exists g hgok hgne hg0
    cases r with
    | nil => rw [leafGet_nil_path] at hr; cases hr
    | cons r1 r3 =>
      refine ⟨r1 :: r3, w, ?_⟩
      rw [leafGet_cons2, hg]
      exact hr
  · refine ⟨[], v, ?_⟩
    rw [leafGet_single, hg]
    show (if isVDict v = true then none else some v) = some v
    rw [if_neg (by simpa using hvd)]

/-- Leaf lookup skips an entry whose key differs from the path head. -/
theorem leafGet_cons_ne (k : Key) (v : Val) (rest : Dct) (s : Key) (tl : List Key)
    (h : s ≠ k) : leafGet (.cons k v rest) (s :: tl) = leafGet rest (s :: tl) := by
  cases tl with
  | nil => rw [leafGet_single, leafGet_single, dget_cons_ne _ _ _ _ h]
  | cons t1 t2 => rw [leafGet_cons2, leafGet_cons2, dget_cons_ne _ _ _ _ h]

/-- Leaf lookup in the tail lifts to the whole dict when keys are unique. -/
theorem leafGet_tail_lift (k : Key) (v : Val) (rest : Dct) (hmem : dmem rest k = false) :
    ∀ r w, leafGet rest r = some w → leafGet (.cons k v rest) r = some w := by
  intro r w hx
  cases r with
  | nil => rw [leafGet_nil_path] at hx; cases hx
  | cons s tl =>
    have hs : s ≠ k := by
      intro he
      subst he
      have hnone : dget rest s = none := (dmem_eq_false_iff_dget _ _).1 hmem
      cases tl with
      | nil => rw [leafGet_single, hnone] at hx; cases hx
      | cons t1 t2 => rw [leafGet_cons2, hnone] at hx; cases hx
    rw [leafGet_cons_ne _ _ _ _ _ hs]
    exact hx

/-- A tree whose distinct leaves pairwise separate is collision-free. -/
theorem noCollide_of_sep (D : Dct) : deepOK D = true → noEmptyDeep D = true →
    (∀ r1 r2 w1 w2, leafGet D r1 = some w1 → leafGet D r2 = some w2 → r1 ≠ r2 →
      sepPaths r1 r2 = true) →
    noCollide D = true := by
  induction D using dctInd with
  | hnil => intro _ _ _; rfl
  | hcons s v rest ihg ihr =>
    intro hok hne hsep
    obtain ⟨hdot, hmem, hV, hrest⟩ := (deepOK_cons_iff _ _ _).1 hok
    obtain ⟨hnv, hnrest⟩ := (noEmptyDeep_cons_iff _ _ _).1 hne
    obtain ⟨tlA, wA, hA⟩ := leafGet_at_key (.cons s v rest) s v hok hne (dget_cons_self _ _ _)
    rw [noCollide_cons_iff]
    refine ⟨?_, ?_, ?_⟩
    · -- distinct stripped names at this level
      intro s2 hs2
      obtain ⟨v2, hv2⟩ := dkeys_dget_some rest s2 hs2
      obtain ⟨tl2, w2, h2⟩ := leafGet_at_key rest s2 v2 hrest hnrest hv2
      have h2D : leafGet (.cons s v rest) (s2 :: tl2) = some w2 :=
        leafGet_tail_lift s v rest hmem _ w2 h2
      have hsne : s ≠ s2 := by
        intro he
        rw [dmem_false_iff] at hmem
        exact hmem (he ▸ hs2)
      have hr := hsep (s :: tlA) (s2 :: tl2) wA w2 hA h2D (by simp [hsne])
      rw [sepPaths, if_neg hsne] at hr
      simp only [Bool.not_eq_true', beq_eq_false_iff_ne, ne_eq] at hr
      exact hr
    · -- recursion into a group value
      by_cases hvd : isVDict v = true
      · obtain ⟨g, rfl⟩ := (isVDict_iff v).1 hvd
        by_cases hu : endsU s = true
        · rw [noCollideV, if_pos hu]
        · rw [noCollideV, if_neg hu]
          have hgok : deepOK g = true := by rw [deepOKV] at hV; exact hV
          obtain ⟨hg0, hgne⟩ := (noEmptyV_dict_iff g).1 hnv
          refine ihg g rfl hgok hgne ?_
          intro r1 r2 w1 w2 h1 h2 hne12
          have hr1ne : r1 ≠ [] := by
            intro he; subst he; rw [leafGet_nil_path] at h1; cases h1
          have hr2ne : r2 ≠ [] := by
            intro he; subst he; rw [leafGet_nil_path] at h2; cases h2
          obtain ⟨a1, b1, rfl⟩ : ∃ a b, r1 = a :: b := by
            cases r1 with
            | nil => exact absurd rfl hr1ne
            | cons a b => exact ⟨a, b, rfl⟩
          obtain ⟨a2, b2, rfl⟩ : ∃ a b, r2 = a :: b := by
            cases r2 with
            | nil => exact absurd rfl hr2ne
            | cons a b => exact ⟨a, b, rfl⟩
          have h1D : leafGet (.cons s (Val.vdict g) rest) (s :: a1 :: b1) = some w1 := by
            rw [leafGet_cons2, dget_cons_self]; exact h1
          have h2D : leafGet (.cons s (Val.vdict g) rest) (s :: a2 :: b2) = some w2 := by
            rw [leafGet_cons2, dget_cons_self]; exact h2
          have hr := hsep _ _ w1 w2 h1D h2D (by simp [hne12])
          rw [sepPaths, if_pos rfl] at hr
          exact hr
      · exact noCollideV_nonDict s v (by simpa using hvd)
    · -- recursion into the tail
      refine ihr hrest hnrest ?_
      intro r1 r2 w1 w2 h1 h2 hne12
      exact hsep r1 r2 w1 w2 (leafGet_tail_lift s v rest hmem _ _ h1)
        (leafGet_tail_lift s v rest hmem _ _ h2) hne12

/-! ## Looking up a flat image -/

theorem splitDot_joinDots (ps : List Key) (hne : ps ≠ [])
    (hdot : ∀ p ∈ ps, hasDot p = false) : splitDot (joinDots ps) = ps := by
  induction ps with
  | nil => exact absurd rfl hne
  | cons a rest ih =>
    cases rest with
    | nil =>
      rw [show joinDots [a] = a from rfl]
      exact splitDot_of_noDot a (hdot a (by simp))
    | cons b rest2 =>
      rw [show joinDots (a :: b :: rest2) = a ++ '.' :: joinDots (b :: rest2) from rfl]
      rw [splitDot_append _ _ (hdot a (by simp))]
      rw [ih (by simp) (fun p hp => hdot p (by simp [hp]))]

theorem dget_mapKeysPre_hit (s : Key) (M : Dct) (q2 : Key) :
    dget (mapKeysPre s M) (s ++ '.' :: q2) = dget M q2 := by
  induction M using dctIndT with
  | hnil => rfl
  | hcons k v rest ih =>
    rw [mapKeysPre]
    by_cases he : q2 = k
    · subst he
      rw [dget_cons_self, dget_cons_self]
    · have hne : s ++ '.' :: q2 ≠ s ++ '.' :: k := by
        intro hx
        exact he (joinPre_inj (some s) q2 k hx)
      rw [dget_cons_ne _ _ _ _ hne, dget_cons_ne _ _ _ _ he, ih]

theorem dget_mapKeysPre_miss (s : Key) (M : Dct) (q : Key)
    (h : ∀ q2, q ≠ s ++ '.' :: q2) : dget (mapKeysPre s M) q = none := by
  induction M using dctIndT with
  | hnil => rfl
  | hcons k v rest ih =>
    rw [mapKeysPre, dget_cons_ne _ _ _ _ (h k), ih]

/-- Looking up a flat key in the flat image is leaf lookup along its split
path. -/
theorem flatSpec_dget (D : Dct) : deepOK D = true → ∀ q : Key,
    dget (flatSpec D none) q = leafGet D (splitDot q) := by
  induction D using dctInd with
  | hnil =>
    intro _ q
    rw [show flatSpec .nil none = .nil from rfl, dget_nil, leafGet_nil_dct]
  | hcons s v rest ihg ihr =>
    intro hok q
    obtain ⟨hdot, hmem, hV, hrest⟩ := (deepOK_cons_iff _ _ _).1 hok
    have hsne : ∀ tl, leafGet rest (s :: tl) = none := by
      intro tl
      have hnone : dget rest s = none := (dmem_eq_false_iff_dget _ _).1 hmem
      cases tl with
      | nil => rw [leafGet_single, hnone]
      | cons t1 t2 => rw [leafGet_cons2, hnone]
    by_cases hvd : isVDict v = true
    · obtain ⟨g, rfl⟩ := (isVDict_iff v).1 hvd
      have hgok : deepOK g = true := by rw [deepOKV] at hV; exact hV
      rw [flatSpec, if_pos hvd, flatSpecV, show joinPre none s = s from rfl,
        flatSpec_pre g s, dget_dappend]
      cases hsp : splitDot q with
      | nil => exact absurd hsp (splitDot_ne_nil q)
      | cons t ts =>
        have hq : q = joinDots (t :: ts) := by rw [← hsp, joinDots_splitDot]
        have htdot : hasDot t = false := splitDot_pieces q t (by rw [hsp]; simp)
        cases ts with
        | nil =>
          -- q is a single dot-free piece
          have hqt : q = t := by rw [hq]; rfl
          subst hqt
          have hmiss : dget (mapKeysPre s (flatSpec g none)) q = none := by
            refine dget_mapKeysPre_miss s _ q ?_
            intro q2 hx
            have : hasDot q = true := by
              unfold hasDot
              rw [hx]
              simp
            rw [this] at htdot
            cases htdot
          rw [hmiss]
          rw [show (Option.orElse none fun _ => dget (flatSpec rest none) q)
            = dget (flatSpec rest none) q from rfl]
          rw [ihr hrest q, hsp]
          by_cases he : q = s
          · subst he
            rw [hsne [], leafGet_single, dget_cons_self]
            rfl
          · rw [leafGet_cons_ne _ _ _ _ _ he]
        | cons t2 ts2 =>
          by_cases he : t = s
          · subst he
            -- the key addresses the subtree under `s`
            have hq2 : q = t ++ '.' :: joinDots (t2 :: ts2) := by
              rw [hq]
              rfl
            have hsplit2 : splitDot (joinDots (t2 :: ts2)) = t2 :: ts2 := by
              refine splitDot_joinDots _ (by simp) ?_
              intro p hp
              exact splitDot_pieces q p (by rw [hsp]; simp [hp])
            have hhit : dget (mapKeysPre t (flatSpec g none)) q
                = leafGet g (t2 :: ts2) := by
              rw [hq2, dget_mapKeysPre_hit, ihg g rfl hgok, hsplit2]
            rw [hhit]
            have hrestmiss : dget (flatSpec rest none) q = none := by
              rw [dget_eq_none_iff]
              intro hx
              obtain ⟨k2, hk2, hcase⟩ := flatSpec_keys rest none q hx
              have hk2dot : hasDot k2 = false := deepOK_keys rest hrest k2 hk2
              have hk2ne : t ≠ k2 := by
                intro hee
                rw [dmem_false_iff] at hmem
                exact hmem (hee ▸ hk2)
              rcases hcase with hcc | ⟨t3, hcc⟩
              · rw [show joinPre none k2 = k2 from rfl] at hcc
                rw [hq2] at hcc
                exact noDot_ne_dotJoin k2 t (joinDots (t2 :: ts2)) hk2dot hcc.symm
              · rw [show joinPre none (k2 ++ '.' :: t3) = k2 ++ '.' :: t3 from rfl] at hcc
                rw [hq2] at hcc
                exact dotJoin_ne t k2 (joinDots (t2 :: ts2)) t3 htdot hk2dot hk2ne hcc
            have hfin : leafGet (.cons t (Val.vdict g) rest) (t :: t2 :: ts2)
                = leafGet g (t2 :: ts2) := by
              rw [leafGet_cons2, dget_cons_self]
            rw [hfin]
            cases hx : leafGet g (t2 :: ts2) with
            | none => rw [hrestmiss]; rfl
            | some w => rfl
          · -- the key starts with a different top key
            have hmiss : dget (mapKeysPre s (flatSpec g none)) q = none := by
              refine dget_mapKeysPre_miss s _ q ?_
              intro q2 hx
              have hsp2 : splitDot q = s :: splitDot q2 := by
                rw [hx]
                exact splitDot_append s q2 hdot
              rw [hsp] at hsp2
              exact he (List.head_eq_of_cons_eq hsp2)
            rw [hmiss]
            rw [show (Option.orElse none fun _ => dget (flatSpec rest none) q)
              = dget (flatSpec rest none) q from rfl]
            rw [ihr hrest q, hsp, leafGet_cons_ne _ _ _ _ _ he]
    · rw [flatSpec, if_neg hvd, show joinPre none s = s from rfl]
      by_cases he : q = s
      · subst he
        rw [dget_cons_self, splitDot_of_noDot q hdot, leafGet_single, dget_cons_self]
        show some v = if isVDict v then none else some v
        rw [if_neg hvd]
      · rw [dget_cons_ne _ _ _ _ he, ihr hrest q]
        cases hsp : splitDot q with
        | nil => exact absurd hsp (splitDot_ne_nil q)
        | cons t ts =>
          by_cases hts : t = s
          · subst hts
            rw [hsne ts]
            cases ts with
            | nil =>
              exfalso
              apply he
              rw [← joinDots_splitDot q, hsp]
              rfl
            | cons t2 ts2 =>
              rw [leafGet_cons2_of_nonDict _ _ _ _ v (dget_cons_self _ _ _)
                (by simpa using hvd)]
          · rw [leafGet_cons_ne _ _ _ _ _ hts]

/-- Flat round trip: on a flat dict with non-dict values and pairwise
separated keys, `from_flat_dict` succeeds and `to_flat_dict` of the result
agrees with the input at every key. -/
theorem flat_round_trip {ε : Type} (F : Dct) (hv : valsND F = true)
    (hsep : SepKeys (dkeys F)) :
    ∃ o : ODct, from_flat_dict (ε := ε) F = .ok o ∧
      ∀ q : Key, dget (to_flat_dict o) q = dget F q := by
  have hsep2 : SepKeys (dkeys (.nil : Dct) ++ dkeys F) := by
    rw [show dkeys (.nil : Dct) = [] from rfl, List.nil_append]
    exact hsep
  obtain ⟨D, hgo, hDok, hDne, hinv3, hinv4⟩ :=
    from_flat_loop (ε := ε) F .nil .nil hv hsep2 rfl rfl
      (by intro q; rw [leafGet_nil_dct, dget_nil])
      (by intro r w hx; rw [leafGet_nil_dct] at hx; cases hx)
  have hinv3F : ∀ q : Key, leafGet D (splitDot q) = dget F q := by
    intro q
    rw [hinv3 q]
    rfl
  have hinv4F : ∀ r w, leafGet D r = some w → ∃ q ∈ dkeys F, splitDot q = r := by
    intro r w hx
    obtain ⟨q, hq, hqr⟩ := hinv4 r w hx
    exact ⟨q, hq, hqr⟩
  have hnc : noCollide D = true := by
    refine noCollide_of_sep D hDok hDne ?_
    intro r1 r2 w1 w2 h1 h2 hne
    obtain ⟨q1, hq1, hr1⟩ := hinv4F r1 w1 h1
    obtain ⟨q2, hq2, hr2⟩ := hinv4F r2 w2 h2
    have hqne : q1 ≠ q2 := by
      intro he
      exact hne (by rw [← hr1, ← hr2, he])
    have := SepKeys_both (dkeys F) hsep q1 hq1 q2 hq2 hqne
    rw [hr1, hr2] at this
    exact this
  refine ⟨from_dictD D, ?_, ?_⟩
  · unfold from_flat_dict
    rw [hgo]
  · intro q
    unfold to_flat_dict
    rw [to_dict_from_dict D hnc, flatten_dict_eq D hDok none, flatSpec_dget D hDok q,
      hinv3F q]

/-! ## The merge (`Opt._recursive_update`) as a map -/

theorem recursive_update_cons_dict {ε : Type} (d : Dct) (k0 : Key) (g0 rest : Dct) :
    recursive_update (ε := ε) (.vdict d) (.cons k0 (.vdict g0) rest)
      = match recursive_update (ε := ε) (dgetD d k0 (.vdict .nil)) g0 with
        | .ok inner => recursive_update (ε := ε) (.vdict (dset d k0 inner)) rest
        | .error e => .error e := rfl

theorem recursive_update_cons_scalar {ε : Type} (d : Dct) (k0 : Key) (v0 : Val)
    (rest : Dct) (hvd : isVDict v0 = false) :
    recursive_update (ε := ε) (.vdict d) (.cons k0 v0 rest)
      = recursive_update (ε := ε) (.vdict (dset d k0 v0)) rest := by
  cases v0
  case vdict g => cases hvd
  all_goals rfl

theorem dmem_cons_false (k0 : Key) (v0 : Val) (rest : Dct) (k : Key)
    (h : dmem (.cons k0 v0 rest) k = false) : k ≠ k0 ∧ dmem rest k = false := by
  unfold dmem at h ⊢
  by_cases he : k = k0
  · subst he
    rw [dget_cons_self] at h
    cases h
  · rw [dget_cons_ne _ _ _ _ he] at h
    exact ⟨he, h⟩

/-- Keys absent from `u` keep their `d` value through the merge. -/
theorem recursive_update_frame {ε : Type} (u : Dct) : ∀ (d r : Dct),
    recursive_update (ε := ε) (.vdict d) u = .ok (.vdict r) →
    ∀ k, dmem u k = false → dget r k = dget d k := by
  induction u using dctIndT with
  | hnil =>
    intro d r h k _
    have h2 : (Except.ok (Val.vdict d) : Except (Exn ε) Val) = .ok (.vdict r) := h
    have h3 : Val.vdict d = Val.vdict r := by injection h2
    have h4 : d = r := by injection h3
    rw [← h4]
  | hcons k0 v0 rest ih =>
    intro d r h k hk
    obtain ⟨hkne, hkrest⟩ := dmem_cons_false k0 v0 rest k hk
    by_cases hvd : isVDict v0 = true
    · obtain ⟨g0, rfl⟩ := (isVDict_iff v0).1 hvd
      rw [recursive_update_cons_dict] at h
      cases hri : recursive_update (ε := ε) (dgetD d k0 (.vdict .nil)) g0 with
      | error e =>
        rw [hri] at h
        exact absurd h (by simp)
      | ok inner =>
        rw [hri] at h
        have h2 : recursive_update (ε := ε) (.vdict (dset d k0 inner)) rest
            = .ok (.vdict r) := h
        rw [ih (dset d k0 inner) r h2 k hkrest, dget_dset_ne _ _ _ _ hkne]
    · rw [recursive_update_cons_scalar _ _ _ _ (by simpa using hvd)] at h
      rw [ih (dset d k0 v0) r h k hkrest, dget_dset_ne _ _ _ _ hkne]

/-- Right bias: a scalar key of `u` ends up with its `u` value. -/
theorem recursive_update_bias {ε : Type} (u : Dct) : ∀ (d r : Dct),
    recursive_update (ε := ε) (.vdict d) u = .ok (.vdict r) →
    dUniq u = true → ∀ k v, dget u k = some v → isVDict v = false →
    dget r k = some v := by
  induction u using dctIndT with
  | hnil =>
    intro d r _ _ k v hg _
    rw [dget_nil] at hg
    cases hg
  | hcons k0 v0 rest ih =>
    intro d r h hu k v hg hsv
    have hmem0 : dmem rest k0 = false := by
      cases hx : dmem rest k0 with
      | false => rfl
      | true => rw [dUniq, hx] at hu; cases hu
    have hu2 : dUniq rest = true := by
      rw [dUniq, hmem0] at hu
      simpa using hu
    by_cases hk : k = k0
    · subst hk
      rw [dget_cons_self] at hg
      have hv : v0 = v := by injection hg
      subst hv
      rw [recursive_update_cons_scalar _ _ _ _ hsv] at h
      rw [recursive_update_frame (ε := ε) rest (dset d k v0) r h k hmem0, dget_dset_self]
    · have hg2 : dget rest k = some v := by
        rw [dget_cons_ne _ _ _ _ hk] at hg
        exact hg
      by_cases hvd : isVDict v0 = true
      · obtain ⟨g0, rfl⟩ := (isVDict_iff v0).1 hvd
        rw [recursive_update_cons_dict] at h
        cases hri : recursive_update (ε := ε) (dgetD d k0 (.vdict .nil)) g0 with
        | error e =>
          rw [hri] at h
          exact absurd h (by simp)
        | ok inner =>
          rw [hri] at h
          have h2 : recursive_update (ε := ε) (.vdict (dset d k0 inner)) rest
              = .ok (.vdict r) := h
          exact ih (dset d k0 inner) r h2 hu2 k v hg2 hsv
      · rw [recursive_update_cons_scalar _ _ _ _ (by simpa using hvd)] at h
        exact ih (dset d k0 v0) r h hu2 k v hg2 hsv

/-- Unfolding the dict-level wrapper. -/
theorem recursive_updateD_ok {ε : Type} (d u r : Dct)
    (h : recursive_updateD (ε := ε) d u = .ok r) :
    recursive_update (ε := ε) (.vdict d) u = .ok (.vdict r) := by
  unfold recursive_updateD at h
  cases hx : recursive_update (ε := ε) (.vdict d) u with
  | error e =>
    rw [hx] at h
    exact absurd h (by simp)
  | ok w =>
    rw [hx] at h
    cases w
    case vdict g =>
      have h2 : (Except.ok g : Except (Exn ε) Dct) = .ok r := h
      have h3 : g = r := by injection h2
      rw [h3]
    all_goals exact absurd h (by simp)

/-! ## The sampler-call protocol of `suggest_config` -/

/-- The sampler call the loop body makes for one well-formed tune entry
(`none` when the body raises instead of sampling). -/
def mkCall (k : Key) (v : Val) : Option SCall :=
  match unpack2 v with
  | none => none
  | some (kind, args) =>
    if kind = .vstr (kOf "int") then
      match unpack4 args with
      | none => none
      | some (low, high, step, log) => some (.sInt k low high step log)
    else if kind = .vstr (kOf "float") then
      match unpack4 args with
      | none => none
      | some (low, high, step, log) => some (.sFloat k low high step log)
    else if kind = .vstr (kOf "categorical") then
      some (.sCat k args)
    else
      none

/-- The calls a fully well-formed tune dict prescribes, in entry order. -/
def specCalls : Dct → Option (List SCall)
  | .nil => some []
  | .cons k v rest =>
    match mkCall k v, specCalls rest with
    | some c, some cs => some (c :: cs)
    | _, _ => none

theorem mkCall_name (k : Key) (v : Val) (c : SCall) (h : mkCall k v = some c) :
    callName c = k := by
  unfold mkCall at h
  cases h2 : unpack2 v with
  | none => rw [h2] at h; cases h
  | some p =>
    obtain ⟨kind, args⟩ := p
    simp only [h2] at h
    by_cases hki : kind = Val.vstr (kOf "int")
    · rw [if_pos hki] at h
      cases h4 : unpack4 args with
      | none => rw [h4] at h; cases h
      | some q =>
        obtain ⟨low, high, step, log⟩ := q
        simp only [h4] at h
        have hc : SCall.sInt k low high step log = c := by injection h
        rw [← hc]
        rfl
    · rw [if_neg hki] at h
      by_cases hkf : kind = Val.vstr (kOf "float")
      · rw [if_pos hkf] at h
        cases h4 : unpack4 args with
        | none => rw [h4] at h; cases h
        | some q =>
          obtain ⟨low, high, step, log⟩ := q
          simp only [h4] at h
          have hc : SCall.sFloat k low high step log = c := by injection h
          rw [← hc]
          rfl
      · rw [if_neg hkf] at h
        by_cases hkc : kind = Val.vstr (kOf "categorical")
        · rw [if_pos hkc] at h
          have hc : SCall.sCat k args = c := by injection h
          rw [← hc]
          rfl
        · rw [if_neg hkc] at h
          cases h

theorem specCalls_names (F : Dct) : ∀ cs, specCalls F = some cs →
    List.map callName cs = dkeys F := by
  induction F using dctIndT with
  | hnil =>
    intro cs h
    have h2 : (some [] : Option (List SCall)) = some cs := h
    have h3 : ([] : List SCall) = cs := by injection h2
    rw [← h3]
    rfl
  | hcons k v rest ih =>
    intro cs h
    rw [specCalls] at h
    cases hc : mkCall k v with
    | none => rw [hc] at h; cases h
    | some c =>
      cases hr : specCalls rest with
      | none => rw [hc, hr] at h; cases h
      | some cs0 =>
        rw [hc, hr] at h
        have h3 : c :: cs0 = cs := by injection h
        rw [← h3]
        rw [show List.map callName (c :: cs0) = callName c :: List.map callName cs0 from rfl,
          mkCall_name k v c hc, ih cs0 hr]
        rfl

/-- One loop iteration on a well-formed entry: sample the prescribed call,
then either store the result and continue, or stop with the failure. -/
theorem suggestLoop_cons_eq {ε : Type} (t : Trial ε) (k : Key) (v : Val)
    (rest cand : Dct) (calls : List SCall) (c : SCall) (hc : mkCall k v = some c) :
    suggestLoop t (.cons k v rest) cand calls =
      match t.sample c with
      | .ok w0 => suggestLoop t rest (dset cand k w0) (calls ++ [c])
      | .error e => (calls ++ [c], .error (.ext e)) := by
  unfold mkCall at hc
  rw [suggestLoop]
  cases h2 : unpack2 v with
  | none => rw [h2] at hc; cases hc
  | some p =>
    obtain ⟨kind, args⟩ := p
    simp only [h2] at hc ⊢
    by_cases hki : kind = Val.vstr (kOf "int")
    · rw [if_pos hki] at hc ⊢
      cases h4 : unpack4 args with
      | none => rw [h4] at hc; cases hc
      | some q =>
        obtain ⟨low, high, step, log⟩ := q
        simp only [h4] at hc ⊢
        have hcc : SCall.sInt k low high step log = c := by injection hc
        rw [hcc]
    · rw [if_neg hki] at hc ⊢
      by_cases hkf : kind = Val.vstr (kOf "float")
      · rw [if_pos hkf] at hc ⊢
        cases h4 : unpack4 args with
        | none => rw [h4] at hc; cases hc
        | some q =>
          obtain ⟨low, high, step, log⟩ := q
          simp only [h4] at hc ⊢
          have hcc : SCall.sFloat k low high step log = c := by injection hc
          rw [hcc]
      · rw [if_neg hkf] at hc ⊢
        by_cases hkc : kind = Val.vstr (kOf "categorical")
        · rw [if_pos hkc] at hc ⊢
          have hcc : SCall.sCat k args = c := by injection hc
          rw [hcc]
        · rw [if_neg hkc] at hc
          cases hc

/-- One loop iteration on an entry of unrecognized kind: no sampler call,
the loop raises `ValueError` at once. -/
theorem suggestLoop_cons_bad_kind {ε : Type} (t : Trial ε) (k : Key) (v : Val)
    (rest cand : Dct) (calls : List SCall) (kind args : Val)
    (h2 : unpack2 v = some (kind, args))
    (hki : kind ≠ .vstr (kOf "int")) (hkf : kind ≠ .vstr (kOf "float"))
    (hkc : kind ≠ .vstr (kOf "categorical")) :
    suggestLoop t (.cons k v rest) cand calls = (calls, .error (.valueError kind)) := by
  rw [suggestLoop]
  simp only [h2]
  rw [if_neg hki, if_neg hkf, if_neg hkc]

/-- Running the loop through a well-formed block `pre` on which the sampler
answers: the prescribed calls are made in order, each answer is stored at
its path, and untouched keys keep their value. -/
theorem suggestLoop_through {ε : Type} (t : Trial ε) (w : SCall → Val) (pre : Dct) :
    ∀ (cs1 : List SCall), specCalls pre = some cs1 →
    (∀ c ∈ cs1, t.sample c = .ok (w c)) →
    ∀ (rest cand : Dct) (calls : List SCall),
    ∃ cand2 : Dct,
      suggestLoop t (dappend pre rest) cand calls
        = suggestLoop t rest cand2 (calls ++ cs1) ∧
      (∀ k, dmem pre k = false → dget cand2 k = dget cand k) ∧
      (dUniq pre = true → ∀ k v, dget pre k = some v →
        ∃ c, mkCall k v = some c ∧ c ∈ cs1 ∧ dget cand2 k = some (w c)) ∧
      (dUniq pre = true → (∀ k2 ∈ dkeys pre, dmem cand k2 = false) →
        dkeys cand2 = dkeys cand ++ dkeys pre ∧
          (dUniq cand = true → dUniq cand2 = true)) := by
  induction pre using dctIndT with
  | hnil =>
    intro cs1 hcs _ rest cand calls
    have h2 : (some [] : Option (List SCall)) = some cs1 := hcs
    have h3 : ([] : List SCall) = cs1 := by injection h2
    refine ⟨cand, ?_, ?_, ?_, ?_⟩
    · rw [← h3, List.append_nil]
      rfl
    · intro k _
      rfl
    · intro _ k v hg
      rw [dget_nil] at hg
      cases hg
    · intro _ _
      rw [show dkeys (.nil : Dct) = [] from rfl, List.append_nil]
      exact ⟨rfl, fun h => h⟩
  | hcons k0 v0 rest0 ih =>
    intro cs1 hcs hW rest cand calls
    rw [specCalls] at hcs
    cases hc0 : mkCall k0 v0 with
    | none => rw [hc0] at hcs; cases hcs
    | some c0 =>
      cases hcr : specCalls rest0 with
      | none => rw [hc0, hcr] at hcs; cases hcs
      | some cs0 =>
        rw [hc0, hcr] at hcs
        have h3 : c0 :: cs0 = cs1 := by injection hcs
        subst h3
        have hs0 : t.sample c0 = .ok (w c0) := hW c0 (by simp)
        have hW0 : ∀ c ∈ cs0, t.sample c = .ok (w c) := by
          intro c hcm
          exact hW c (by simp [hcm])
        obtain ⟨cand2, heq, hfr, hpl, hks⟩ :=
          ih cs0 hcr hW0 rest (dset cand k0 (w c0)) (calls ++ [c0])
        refine ⟨cand2, ?_, ?_, ?_, ?_⟩
        · rw [show dappend (.cons k0 v0 rest0) rest
              = .cons k0 v0 (dappend rest0 rest) from rfl]
          rw [suggestLoop_cons_eq t k0 v0 _ cand calls c0 hc0, hs0]
          rw [show (match (Except.ok (w c0) : Except ε Val) with
            | .ok w0 => suggestLoop t (dappend rest0 rest) (dset cand k0 w0) (calls ++ [c0])
            | .error e => (calls ++ [c0], .error (.ext e)))
              = suggestLoop t (dappend rest0 rest) (dset cand k0 (w c0)) (calls ++ [c0])
            from rfl]
          rw [heq, List.append_assoc]
          rfl
        · intro k hk
          obtain ⟨hkne, hkrest⟩ := dmem_cons_false k0 v0 rest0 k hk
          rw [hfr k hkrest, dget_dset_ne _ _ _ _ hkne]
        · intro hu k v hg
          have hmem0 : dmem rest0 k0 = false := by
            cases hx : dmem rest0 k0 with
            | false => rfl
            | true => rw [dUniq, hx] at hu; cases hu
          have hu0 : dUniq rest0 = true := by
            rw [dUniq, hmem0] at hu
            simpa using hu
          by_cases hk : k = k0
          · subst hk
            rw [dget_cons_self] at hg
            have hv : v0 = v := by injection hg
            subst hv
            refine ⟨c0, hc0, by simp, ?_⟩
            rw [hfr k hmem0, dget_dset_self]
          · have hg2 : dget rest0 k = some v := by
              rw [dget_cons_ne _ _ _ _ hk] at hg
              exact hg
            obtain ⟨c, hcm, hcin, hcg⟩ := hpl hu0 k v hg2
            exact ⟨c, hcm, by simp [hcin], hcg⟩
        · intro hu hfresh
          have hmem0 : dmem rest0 k0 = false := by
            cases hx : dmem rest0 k0 with
            | false => rfl
            | true => rw [dUniq, hx] at hu; cases hu
          have hu0 : dUniq rest0 = true := by
            rw [dUniq, hmem0] at hu
            simpa using hu
          have hcand0 : dmem cand k0 = false := hfresh k0 (by simp [dkeys])
          have hset : dset cand k0 (w c0) = dappend cand (.cons k0 (w c0) .nil) :=
            dset_fresh cand k0 (w c0) hcand0
          have hfresh2 : ∀ k2 ∈ dkeys rest0, dmem (dset cand k0 (w c0)) k2 = false := by
            intro k2 hk2
            have hk2ne : k2 ≠ k0 := by
              intro he
              subst he
              rw [dmem_false_iff] at hmem0
              exact hmem0 hk2
            rw [dmem_dset_ne _ _ _ _ hk2ne]
            exact hfresh k2 (by simp [dkeys, hk2])
          obtain ⟨hkeys, huq⟩ := hks hu0 hfresh2
          constructor
          · rw [hkeys, hset, dkeys_dappend]
            rw [show dkeys (Dct.cons k0 (w c0) .nil) = [k0] from rfl,
              show dkeys (Dct.cons k0 v0 rest0) = k0 :: dkeys rest0 from rfl,
              List.append_assoc]
            rfl
          · intro hcu
            refine huq ?_
            rw [hset]
            rw [dUniq_dappend_iff]
            refine ⟨hcu, rfl, ?_⟩
            intro q hq
            rw [show dkeys (Dct.cons k0 (w c0) .nil) = [k0] from rfl]
            simp only [List.mem_singleton]
            intro he
            subst he
            rw [dmem_false_iff] at hcand0
            exact hcand0 hq

/-! ## Sanitization (`Opt.sanitize_dict`) -/

mutual
/-- Every value reachable through nested mappings is a bool, number,
string, sequence or mapping. -/
def isCleanD : Dct → Bool
  | .nil => true
  | .cons _ v rest => isCleanV v && isCleanD rest

def isCleanV : Val → Bool
  | .vdict g => isCleanD g
  | v => isPrim v
end

theorem isCleanV_nonDict (v : Val) (h : isVDict v = false) : isCleanV v = isPrim v := by
  cases v
  case vdict g => cases h
  all_goals rfl

/-- What `sanitize_dict` does to one stored value. -/
def sanEntry (v : Val) : Val :=
  if isVDict v then sanitize_val v
  else if !(isPrim v) then .vstr (displayStr v)
  else v

theorem sanitize_dict_cons (k0 : Key) (v0 : Val) (rest : Dct) :
    sanitize_dict (.cons k0 v0 rest) = .cons k0 (sanEntry v0) (sanitize_dict rest) := by
  rw [sanitize_dict]
  unfold sanEntry
  by_cases hvd : isVDict v0 = true
  · rw [if_pos hvd, if_pos hvd]
  · rw [if_neg hvd, if_neg hvd]
    by_cases hp : (!isPrim v0) = true
    · rw [if_pos hp, if_pos hp]
    · rw [if_neg hp, if_neg hp]

theorem sanitize_dget (d : Dct) : ∀ k,
    dget (sanitize_dict d) k = Option.map sanEntry (dget d k) := by
  induction d using dctIndT with
  | hnil => intro k; rfl
  | hcons k0 v0 rest ih =>
    intro k
    rw [sanitize_dict_cons]
    by_cases hk : k = k0
    · subst hk
      rw [dget_cons_self, dget_cons_self]
      rfl
    · rw [dget_cons_ne _ _ _ _ hk, dget_cons_ne _ _ _ _ hk, ih k]

theorem sanitize_keys (d : Dct) : dkeys (sanitize_dict d) = dkeys d := by
  induction d using dctIndT with
  | hnil => rfl
  | hcons k0 v0 rest ih =>
    rw [sanitize_dict_cons]
    rw [show dkeys (Dct.cons k0 (sanEntry v0) (sanitize_dict rest))
      = k0 :: dkeys (sanitize_dict rest) from rfl, ih]
    rfl

theorem sanitize_clean (d : Dct) : isCleanD (sanitize_dict d) = true := by
  induction d using dctInd with
  | hnil => rfl
  | hcons k v rest ihg ihr =>
    rw [sanitize_dict_cons, isCleanD]
    by_cases hvd : isVDict v = true
    · obtain ⟨g, rfl⟩ := (isVDict_iff v).1 hvd
      rw [show sanEntry (Val.vdict g) = .vdict (sanitize_dict g) from rfl,
        show isCleanV (Val.vdict (sanitize_dict g)) = isCleanD (sanitize_dict g) from rfl,
        ihg g rfl, ihr]
      rfl
    · have hvdf : isVDict v = false := by
        cases hx : isVDict v
        · rfl
        · exact absurd hx hvd
      have hse : sanEntry v = if !(isPrim v) then .vstr (displayStr v) else v := by
        unfold sanEntry
        rw [if_neg hvd]
      by_cases hp : isPrim v = true
      · rw [hse, if_neg (by rw [hp]; simp)]
        rw [isCleanV_nonDict v hvdf, hp, ihr]
        rfl
      · have hpf : isPrim v = false := by
          cases hx : isPrim v
          · rfl
          · exact absurd hx hp
        rw [hse, if_pos (by rw [hpf]; rfl)]
        rw [show isCleanV (Val.vstr (displayStr v)) = true from rfl, ihr]
        rfl

instance (l : List Key) : Decidable (SepKeys l) :=
  inferInstanceAs (Decidable (l.Pairwise (fun k1 k2 => sepPaths (splitDot k1) (splitDot k2) = true)))

theorem suggest_core_loop_err {ε : Type} (t : Trial ε) (base_hp tune_hp : ODct)
    (calls : List SCall) (e : Exn ε)
    (h : suggestLoop t (to_flat_dict tune_hp) .nil [] = (calls, .error e)) :
    suggest_core t base_hp tune_hp = (calls, .error e) := by
  simp only [suggest_core]
  rw [h]

theorem suggest_core_eq {ε : Type} (t : Trial ε) (base_hp tune_hp : ODct)
    (calls : List SCall) (cand merged : Dct)
    (hl : suggestLoop t (to_flat_dict tune_hp) .nil [] = (calls, .ok cand))
    (hm : recursive_updateD (ε := ε) (to_flat_dict base_hp) cand = .ok merged) :
    suggest_core t base_hp tune_hp = (calls, from_flat_dict merged) := by
  simp only [suggest_core]
  rw [hl]
  show (match recursive_updateD (ε := ε) (to_flat_dict base_hp) cand with
    | .error e => (calls, .error e)
    | .ok merged2 => (calls, from_flat_dict merged2)) = (calls, from_flat_dict merged)
  rw [hm]

theorem suggest_config_err {ε : Type} (t : Trial ε) (base_hp tune_hp : ODct)
    (calls : List SCall) (e : Exn ε)
    (h : suggest_core t base_hp tune_hp = (calls, .error e)) :
    suggest_config t base_hp tune_hp = (calls, .error e) := by
  unfold suggest_config
  rw [h]

/-! ## The claims

Concrete configurations, samplers and calls used by the witnesses and
counterexamples below. -/

/-- `{"a": {}}`: a nested map whose only entry is an empty group. -/
def Cempty : Dct := .cons (kOf "a") (.vdict .nil) .nil

/-- `{"lr": 0.0011, "dnd": {"size": 2000}}`. -/
def C1w : Dct := .cons (kOf "lr") (.vfloat (mkRat 11 10000))
  (.cons (kOf "dnd") (.vdict (.cons (kOf "size") (.vint 2000) .nil)) .nil)

/-- `{"lr": 0.0011, "dnd.size": 2000}`. -/
def F2w : Dct := .cons (kOf "lr") (.vfloat (mkRat 11 10000))
  (.cons (kOf "dnd.size") (.vint 2000) .nil)

/-- `{"a": 1, "a_": 2}`: flat, dot-free, distinct keys. -/
def Fcol : Dct := .cons (kOf "a") (.vint 1) (.cons (kOf "a_") (.vint 2) .nil)

/-- The tune spec `("float", (0.0001, 0.1, None, True))`. -/
def spec8 : Val := .vtup (.cons (.vstr (kOf "float"))
  (.cons (.vtup (.cons (.vfloat (mkRat 1 10000)) (.cons (.vfloat (mkRat 1 10))
    (.cons .vnone (.cons (.vbool true) .nil))))) .nil))

/-- Base config with flat form `{"lr": 0.01, "gamma": 0.9}`. -/
def base8 : ODct := .cons (kOf "lr") (.leaf (.vfloat (mkRat 1 100)))
  (.cons (kOf "gamma") (.leaf (.vfloat (mkRat 9 10))) .nil)

/-- Tune config with flat form `{"lr": ("float", (0.0001, 0.1, None, True))}`. -/
def tune8 : ODct := .cons (kOf "lr") (.leaf spec8) .nil

/-- A trial whose sampler always answers `0.005`. -/
def t8 : Trial Unit := ⟨fun _ => .ok (.vfloat (mkRat 5 1000)), 7⟩

/-- The one call the tune config `tune8` prescribes. -/
def c8 : SCall := .sFloat (kOf "lr") (.vfloat (mkRat 1 10000)) (.vfloat (mkRat 1 10))
  .vnone (.vbool true)

/-- A trial whose sampler always fails (e.g. a prune signal). -/
def tFail : Trial Unit := ⟨fun _ => .error (), 0⟩

/-- Base config holding only `out_dir`, a path. -/
def b6 : ODct := .cons (kOf "out_dir") (.leaf (.vpath (kOf "r"))) .nil

/-- The tune spec `("categorical", [Path("r")])`. -/
def spec6 : Val := .vtup (.cons (.vstr (kOf "categorical"))
  (.cons (.vlist (.cons (.vpath (kOf "r")) .nil)) .nil))

/-- Tune config sampling `out_dir` itself. -/
def u6 : ODct := .cons (kOf "out_dir") (.leaf spec6) .nil

/-- A trial (number 7) whose sampler answers `Path("r2")`. -/
def t6 : Trial Unit := ⟨fun _ => .ok (.vpath (kOf "r2")), 7⟩

/-- The one call the tune config `u6` prescribes. -/
def c6 : SCall := .sCat (kOf "out_dir") (.vlist (.cons (.vpath (kOf "r")) .nil))

/-- The tune spec `("enum", [1])`, an unsupported kind. -/
def spec7 : Val := .vtup (.cons (.vstr (kOf "enum"))
  (.cons (.vlist (.cons (.vint 1) .nil)) .nil))

/-- Tune config with a well-formed leaf followed by an `"enum"` leaf. -/
def tune7 : ODct := .cons (kOf "lr") (.leaf spec8) (.cons (kOf "act") (.leaf spec7) .nil)

/-- C1: round trip of a nested configuration through
`from_dict`/`to_dict`/`to_flat_dict`/`from_flat_dict`.  As amended, besides
the absence of preserve-verbatim duplicate collisions (`noCollide`) the
configuration must have dot-free, duplicate-free keys at every level
(`deepOK`) and no empty group (`noEmptyDeep`): then the expansion of the
flattening is exactly the structure built from `C`, and its nested-map
image is `C` itself. -/
theorem claim_C1 {ε : Type} (C : Dct) (h1 : noCollide C = true)
    (h2 : deepOK C = true) (h3 : noEmptyDeep C = true) :
    from_flat_dict (ε := ε) (to_flat_dict (from_dictD C)) = .ok (from_dictD C) ∧
      to_dict (from_dictD C) = C :=
  expand_flatten_round_trip C h1 h2 h3

/-- C1 witness: the round trip on `{"lr": 0.0011, "dnd": {"size": 2000}}`. -/
theorem claim_C1_witness :
    from_flat_dict (ε := Unit) (to_flat_dict (from_dictD C1w)) = .ok (from_dictD C1w) ∧
      to_dict (from_dictD C1w) = C1w :=
  claim_C1 (ε := Unit) C1w (by decide) (by decide) (by decide)

/-- C1 counterexample to the claim as stated: `{"a": {}}` has no
preserve-verbatim duplicate collision, yet the flattening drops the empty
group, so the expansion is the empty structure and the round trip loses
`a`. -/
theorem claim_C1_cex :
    noCollide Cempty = true ∧
    from_flat_dict (ε := Unit) (to_flat_dict (from_dictD Cempty)) = .ok .nil ∧
    from_dictD Cempty ≠ .nil ∧
    to_dict (.nil : ODct) ≠ Cempty := by decide

/-- C2: flat round trip.  As amended, besides keys that are not strict
dot-prefixes of one another the flat map needs non-dict values (`valsND`)
and pairwise separated keys (`SepKeys`: at the first differing dot
segment, the segments stay different even after stripping trailing
underscores — this also rules out the prefix case); then the expansion
succeeds and its flattening agrees with `F` at every key, i.e. equals `F`
as a Python dict. -/
theorem claim_C2 {ε : Type} (F : Dct) (hv : valsND F = true)
    (hsep : SepKeys (dkeys F)) :
    ∃ o : ODct, from_flat_dict (ε := ε) F = .ok o ∧
      ∀ q : Key, dget (to_flat_dict o) q = dget F q :=
  flat_round_trip F hv hsep

/-- C2 witness: the flat round trip on `{"lr": 0.0011, "dnd.size": 2000}`. -/
theorem claim_C2_witness :
    ∃ o : ODct, from_flat_dict (ε := Unit) F2w = .ok o ∧
      ∀ q : Key, dget (to_flat_dict o) q = dget F2w q :=
  claim_C2 (ε := Unit) F2w (by decide) (by decide)

/-- C2 counterexample to the claim as stated: in `{"a": 1, "a_": 2}` no
key is a strict dot-prefix of another (both are dot-free and distinct),
yet expansion collapses `a` into `a_` (`rstrip("_")` aliasing), so the
flattening of the expansion has no key `a` at all. -/
theorem claim_C2_cex :
    (dkeys Fcol).all (fun k => !(hasDot k)) = true ∧
    dUniq Fcol = true ∧
    from_flat_dict (ε := Unit) Fcol
      = .ok (.cons (kOf "a") (.leaf (.vint 2)) (.cons (kOf "a_") (.leaf (.vint 2)) .nil)) ∧
    to_flat_dict (.cons (kOf "a") (.leaf (.vint 2)) (.cons (kOf "a_") (.leaf (.vint 2)) .nil))
      = .cons (kOf "a_") (.vint 2) .nil ∧
    dget (Dct.cons (kOf "a_") (.vint 2) .nil) (kOf "a") = none ∧
    dget Fcol (kOf "a") = some (.vint 1) := by decide

/-- C3: the merge `Opt._recursive_update` is right-biased — when the merge
succeeds, a scalar key of `src` (unique there, present in `dst` too) maps
to its `src` value in the result — and it is not symmetric, witnessed by
`{"x": 1}` against `{"x": 2}`. -/
theorem claim_C3 {ε : Type} (dst src r : Dct) (k : Key) (v : Val)
    (hu : dUniq src = true) (hscalar : isVDict v = false)
    (hsrc : dget src k = some v) (hdst : dmem dst k = true)
    (hok : recursive_updateD (ε := ε) dst src = .ok r) :
    dget r k = some v ∧
    recursive_updateD (ε := ε)
        (Dct.cons (kOf "x") (.vint 1) .nil) (Dct.cons (kOf "x") (.vint 2) .nil)
      ≠ recursive_updateD (ε := ε)
        (Dct.cons (kOf "x") (.vint 2) .nil) (Dct.cons (kOf "x") (.vint 1) .nil) := by
  constructor
  · exact recursive_update_bias (ε := ε) src dst r (recursive_updateD_ok dst src r hok)
      hu k v hsrc hscalar
  · intro hx
    have h1 : recursive_updateD (ε := ε)
        (Dct.cons (kOf "x") (.vint 1) .nil) (Dct.cons (kOf "x") (.vint 2) .nil)
        = .ok (Dct.cons (kOf "x") (.vint 2) .nil) := rfl
    have h2 : recursive_updateD (ε := ε)
        (Dct.cons (kOf "x") (.vint 2) .nil) (Dct.cons (kOf "x") (.vint 1) .nil)
        = .ok (Dct.cons (kOf "x") (.vint 1) .nil) := rfl
    rw [h1, h2] at hx
    have h3 : Dct.cons (kOf "x") (.vint 2) .nil = Dct.cons (kOf "x") (.vint 1) .nil := by
      injection hx
    have h4 : (Val.vint 2 = Val.vint 1) ∧ (Dct.nil = Dct.nil) := by
      injection h3 with ha hb hc
      exact ⟨hb, hc⟩
    exact absurd h4.1 (by decide)

/-- C3 witness: merging `{"x": 2}` into `{"x": 1}` gives `x ↦ 2`. -/
theorem claim_C3_witness :
    dget (Dct.cons (kOf "x") (.vint 2) .nil) (kOf "x") = some (.vint 2) ∧
    recursive_updateD (ε := Unit)
        (Dct.cons (kOf "x") (.vint 1) .nil) (Dct.cons (kOf "x") (.vint 2) .nil)
      ≠ recursive_updateD (ε := Unit)
        (Dct.cons (kOf "x") (.vint 2) .nil) (Dct.cons (kOf "x") (.vint 1) .nil) :=
  claim_C3 (ε := Unit) (Dct.cons (kOf "x") (.vint 1) .nil)
    (Dct.cons (kOf "x") (.vint 2) .nil) (Dct.cons (kOf "x") (.vint 2) .nil)
    (kOf "x") (.vint 2) (by decide) (by decide) (by decide) (by decide) (by decide)

/-- C4: dual storage and alias dropping on `{"message_": {"x": 1}}`:
`from_dict` stores the same unexpanded dict value under both `message`
and `message_`, and `to_dict` drops the bare alias again, returning
exactly `{"message_": {"x": 1}}`. -/
theorem claim_C4 :
    from_dictD (Dct.cons (kOf "message_") (.vdict (.cons (kOf "x") (.vint 1) .nil)) .nil)
      = ODct.cons (kOf "message") (.leaf (.vdict (.cons (kOf "x") (.vint 1) .nil)))
          (.cons (kOf "message_") (.leaf (.vdict (.cons (kOf "x") (.vint 1) .nil))) .nil) ∧
    to_dict (ODct.cons (kOf "message") (.leaf (.vdict (.cons (kOf "x") (.vint 1) .nil)))
          (.cons (kOf "message_") (.leaf (.vdict (.cons (kOf "x") (.vint 1) .nil))) .nil))
      = Dct.cons (kOf "message_") (.vdict (.cons (kOf "x") (.vint 1) .nil)) .nil := by decide

/-- C5: the key-conflict behaviour of `from_flat_dict`, as amended: the
policy is order-dependent.  With `a` inserted before `a.b`, merging the
expansion of `a.b` into the scalar at `a` raises `TypeError`; with `a.b`
inserted before `a`, the later plain key silently overwrites the group and
the expansion succeeds with `a ↦ 1`. -/
theorem claim_C5 :
    from_flat_dict (ε := Unit)
        (Dct.cons (kOf "a") (.vint 1) (.cons (kOf "a.b") (.vint 2) .nil))
      = .error .typeError ∧
    from_flat_dict (ε := Unit)
        (Dct.cons (kOf "a.b") (.vint 2) (.cons (kOf "a") (.vint 1) .nil))
      = .ok (.cons (kOf "a") (.leaf (.vint 1)) .nil) := by decide

/-- C5 counterexample to the claim as stated: the two insertion orders of
the same conflicting pair give different outcomes, so the policy is not
insertion-order independent. -/
theorem claim_C5_cex :
    from_flat_dict (ε := Unit)
        (Dct.cons (kOf "a") (.vint 1) (.cons (kOf "a.b") (.vint 2) .nil))
      ≠ from_flat_dict (ε := Unit)
        (Dct.cons (kOf "a.b") (.vint 2) (.cons (kOf "a") (.vint 1) .nil)) := by decide

/-- C10: `_flatten_dict` silently drops empty groups: an empty-group entry
contributes nothing to the flat map (first conjunct, at any position of
the loop); hence flattening is not injective — `{"a": {}}` and `{}` have
the same flat image while differing — and the flatten/expand round trip
loses the empty group. -/
theorem claim_C10 :
    (∀ (k : Key) (rest : Dct) (pre : Option Key) (flat : Dct),
      flatten_go (.cons k (.vdict .nil) rest) pre flat = flatten_go rest pre flat) ∧
    flatten_dict Cempty none = flatten_dict .nil none ∧
    Cempty ≠ .nil ∧
    from_flat_dict (ε := Unit) (to_flat_dict (from_dictD Cempty)) = .ok .nil ∧
    from_dictD Cempty ≠ .nil := by
  refine ⟨fun k rest pre flat => rfl, ?_, ?_, ?_, ?_⟩ <;> decide

/-- C7: a tune leaf of unrecognized kind makes `suggest_config` raise
`ValueError` with that kind.  The failure position is deterministic:
exactly the calls of the leaves before the offending one (in the
flattened map's iteration order, second conjunct) are made; the offending
leaf and everything after it are never sampled. -/
theorem claim_C7 {ε : Type} (t : Trial ε) (base_hp tune_hp : ODct)
    (pre post : Dct) (k : Key) (v kind args : Val) (cs1 : List SCall) (w : SCall → Val)
    (hflat : to_flat_dict tune_hp = dappend pre (.cons k v post))
    (hcs : specCalls pre = some cs1)
    (hW : ∀ c ∈ cs1, t.sample c = .ok (w c))
    (h2 : unpack2 v = some (kind, args))
    (hki : kind ≠ .vstr (kOf "int")) (hkf : kind ≠ .vstr (kOf "float"))
    (hkc : kind ≠ .vstr (kOf "categorical")) :
    suggest_config t base_hp tune_hp = (cs1, .error (.valueError kind)) ∧
    List.map callName cs1 = dkeys pre := by
  obtain ⟨cand2, heq, _, _, _⟩ :=
    suggestLoop_through t w pre cs1 hcs hW (.cons k v post) .nil []
  have hloop : suggestLoop t (to_flat_dict tune_hp) .nil []
      = (cs1, .error (.valueError kind)) := by
    rw [hflat, heq, List.nil_append,
      suggestLoop_cons_bad_kind t k v post cand2 cs1 kind args h2 hki hkf hkc]
  exact ⟨suggest_config_err t base_hp tune_hp cs1 _
      (suggest_core_loop_err t base_hp tune_hp cs1 _ hloop),
    specCalls_names pre cs1 hcs⟩

/-- C7 witness: tune `{"lr": ("float", ...), "act": ("enum", [1])}` — the
`lr` leaf is sampled, then `ValueError ("enum")` is raised. -/
theorem claim_C7_witness :
    suggest_config t8 base8 tune7
      = ([c8], .error (.valueError (.vstr (kOf "enum")))) ∧
    List.map callName [c8] = dkeys (.cons (kOf "lr") spec8 .nil) :=
  claim_C7 t8 base8 tune7 (.cons (kOf "lr") spec8 .nil) .nil (kOf "act") spec7
    (.vstr (kOf "enum")) (.vlist (.cons (.vint 1) .nil)) [c8]
    (fun _ => .vfloat (mkRat 5 1000))
    (by decide) (by decide) (by decide) (by decide) (by decide) (by decide) (by decide)

/-- C8: the Resolve scenario, as amended: with base flat
`{"lr": 0.01, "gamma": 0.9}`, tune flat `{"lr": ("float", (0.0001, 0.1,
None, True))}` and a sampler answering `0.005`, the merge-and-expand core
of `suggest_config` (through line 73) yields the nested configuration
`{"lr": 0.005, "gamma": 0.9}` — the untuned path `gamma` keeps its base
value.  (`suggest_config` itself then fails on the missing `out_dir`, see
the counterexample.) -/
theorem claim_C8 :
    suggest_core t8 base8 tune8
      = ([c8], .ok (.cons (kOf "lr") (.leaf (.vfloat (mkRat 5 1000)))
          (.cons (kOf "gamma") (.leaf (.vfloat (mkRat 9 10))) .nil))) ∧
    to_dict (.cons (kOf "lr") (.leaf (.vfloat (mkRat 5 1000)))
          (.cons (kOf "gamma") (.leaf (.vfloat (mkRat 9 10))) .nil))
      = .cons (kOf "lr") (.vfloat (mkRat 5 1000))
          (.cons (kOf "gamma") (.vfloat (mkRat 9 10)) .nil) := by decide

/-- C8 counterexample to the claim as stated: on exactly the claimed
inputs `suggest_config` does not return the nested configuration — line 75
reads the absent `out_dir` and raises `AttributeError`, even though the
sampler succeeded. -/
theorem claim_C8_cex :
    t8.sample c8 = .ok (.vfloat (mkRat 5 1000)) ∧
    suggest_config t8 base8 tune8 = ([c8], .error .attrError) := by decide

/-- C9: `sanitize_dict` leaves mappings and boolean/number/string/sequence
leaves unchanged (mappings being sanitized recursively), replaces every
other leaf by its display string, and its output contains only those
representable kinds at every mapping depth, with the key structure
untouched. -/
theorem claim_C9 (d : Dct) :
    isCleanD (sanitize_dict d) = true ∧
    dkeys (sanitize_dict d) = dkeys d ∧
    (∀ k v, dget d k = some v → isPrim v = true → isVDict v = false →
      dget (sanitize_dict d) k = some v) ∧
    (∀ k g, dget d k = some (.vdict g) →
      dget (sanitize_dict d) k = some (.vdict (sanitize_dict g))) ∧
    (∀ k v, dget d k = some v → isPrim v = false →
      dget (sanitize_dict d) k = some (.vstr (displayStr v))) := by
  refine ⟨sanitize_clean d, sanitize_keys d, ?_, ?_, ?_⟩
  · intro k v hg hp hvd
    rw [sanitize_dget d k, hg]
    show some (sanEntry v) = some v
    unfold sanEntry
    rw [if_neg (by rw [hvd]; simp), if_neg (by rw [hp]; simp)]
  · intro k g hg
    rw [sanitize_dget d k, hg]
    rfl
  · intro k v hg hp
    have hvd : isVDict v = false := by
      cases v
      case vdict g2 => exact Bool.noConfusion hp
      all_goals rfl
    rw [sanitize_dget d k, hg]
    show some (sanEntry v) = some (.vstr (displayStr v))
    unfold sanEntry
    rw [if_neg (by rw [hvd]; simp), if_pos (by rw [hp]; rfl)]

/-- C6: the sampler-call protocol of `suggest_config`, as amended.  On a
well-formed tune config whose sampler answers, the loop makes exactly the
prescribed calls, once per flattened tune leaf, in iteration order, named
by the dot-paths (first conjunct); each answer is stored at its path in
the candidate, and — when the merge over the flat base succeeds and the
merged flat map is well-separated — survives unmodified at that path in
the flat form of the merge-and-expand core's result.  A sampler failure
propagates unchanged (as `.ext e`) out of `suggest_config`, after exactly
the calls before the failing one (second conjunct).  The original claim's
guarantee fails for `suggest_config` itself because of the `out_dir`
post-processing, see the counterexample. -/
theorem claim_C6 {ε : Type} (t : Trial ε) (base_hp tune_hp : ODct) (w : SCall → Val) :
    (∀ cs : List SCall, specCalls (to_flat_dict tune_hp) = some cs →
      dUniq (to_flat_dict tune_hp) = true →
      (∀ c ∈ cs, t.sample c = .ok (w c)) →
      List.map callName cs = dkeys (to_flat_dict tune_hp) ∧
      ∃ cand : Dct, suggestLoop t (to_flat_dict tune_hp) .nil [] = (cs, .ok cand) ∧
        (∀ k v, dget (to_flat_dict tune_hp) k = some v →
          ∃ c, mkCall k v = some c ∧ callName c = k ∧ dget cand k = some (w c)) ∧
        (∀ merged : Dct,
          recursive_updateD (ε := ε) (to_flat_dict base_hp) cand = .ok merged →
          valsND merged = true → SepKeys (dkeys merged) →
          ∃ o : ODct, suggest_core t base_hp tune_hp = (cs, .ok o) ∧
            ∀ k v2, dget cand k = some v2 → isVDict v2 = false →
              dget (to_flat_dict o) k = some v2)) ∧
    (∀ (pre post : Dct) (k : Key) (v : Val) (cs1 : List SCall) (c : SCall) (e : ε),
      to_flat_dict tune_hp = dappend pre (.cons k v post) →
      specCalls pre = some cs1 →
      (∀ c1 ∈ cs1, t.sample c1 = .ok (w c1)) →
      mkCall k v = some c →
      t.sample c = .error e →
      suggest_config t base_hp tune_hp = (cs1 ++ [c], .error (.ext e))) := by
  constructor
  · intro cs hcs hu hW
    obtain ⟨cand2, heq, hfr, hpl, hks⟩ :=
      suggestLoop_through t w (to_flat_dict tune_hp) cs hcs hW .nil .nil []
    have hloop : suggestLoop t (to_flat_dict tune_hp) .nil [] = (cs, .ok cand2) := by
      have h0 : dappend (to_flat_dict tune_hp) .nil = to_flat_dict tune_hp :=
        dappend_nil _
      rw [← h0, heq, List.nil_append]
      rfl
    refine ⟨specCalls_names _ cs hcs, cand2, hloop, ?_, ?_⟩
    · intro k v hg
      obtain ⟨c, hc, hcin, hcg⟩ := hpl hu k v hg
      exact ⟨c, hc, mkCall_name k v c hc, hcg⟩
    · intro merged hm hvnd hsep
      obtain ⟨o, ho, hfl⟩ := flat_round_trip (ε := ε) merged hvnd hsep
      have hcore : suggest_core t base_hp tune_hp = (cs, from_flat_dict merged) :=
        suggest_core_eq t base_hp tune_hp cs cand2 merged hloop hm
      refine ⟨o, ?_, ?_⟩
      · rw [hcore, ho]
      · intro k v2 hcg hscal
        have hks2 := hks hu (fun k2 _ => rfl)
        have hudc : dUniq cand2 = true := hks2.2 rfl
        have hbias := recursive_update_bias (ε := ε) cand2 (to_flat_dict base_hp)
          merged (recursive_updateD_ok _ _ _ hm) hudc k v2 hcg hscal
        rw [hfl k, hbias]
  · intro pre post k v cs1 c e hflat hcs hW1 hc he
    obtain ⟨cand2, heq, _, _, _⟩ :=
      suggestLoop_through t w pre cs1 hcs hW1 (.cons k v post) .nil []
    have hloop : suggestLoop t (to_flat_dict tune_hp) .nil []
        = (cs1 ++ [c], .error (.ext e)) := by
      rw [hflat, heq, List.nil_append,
        suggestLoop_cons_eq t k v post cand2 cs1 c hc, he]
    exact suggest_config_err t base_hp tune_hp _ _
      (suggest_core_loop_err t base_hp tune_hp _ _ hloop)

/-- C6 witness: the protocol instantiated on base `{"lr": 0.01, "gamma":
0.9}` and tune `{"lr": ("float", ...)}`, once with a sampler answering
`0.005` and once with one that always fails. -/
theorem claim_C6_witness :
    (List.map callName [c8] = dkeys (to_flat_dict tune8) ∧
      ∃ cand : Dct, suggestLoop t8 (to_flat_dict tune8) .nil [] = ([c8], .ok cand) ∧
        (∀ k v, dget (to_flat_dict tune8) k = some v →
          ∃ c, mkCall k v = some c ∧ callName c = k ∧
            dget cand k = some (.vfloat (mkRat 5 1000))) ∧
        (∀ merged : Dct,
          recursive_updateD (ε := Unit) (to_flat_dict base8) cand = .ok merged →
          valsND merged = true → SepKeys (dkeys merged) →
          ∃ o : ODct, suggest_core t8 base8 tune8 = ([c8], .ok o) ∧
            ∀ k v2, dget cand k = some v2 → isVDict v2 = false →
              dget (to_flat_dict o) k = some v2)) ∧
    suggest_config tFail base8 tune8 = ([] ++ [c8], .error (.ext ())) :=
  ⟨(claim_C6 (ε := Unit) t8 base8 tune8 (fun _ => .vfloat (mkRat 5 1000))).1
      [c8] (by decide) (by decide) (by decide),
    (claim_C6 (ε := Unit) tFail base8 tune8 (fun _ => .vfloat (mkRat 5 1000))).2
      .nil .nil (kOf "lr") spec8 [] c8 ()
      (by decide) (by decide) (by decide) (by decide) (by decide)⟩

/-- C6 counterexample to the claim as stated: tuning `out_dir` itself, the
sampler's answer `Path("r2")` does not appear unmodified at that path in
the result of `suggest_config` — line 75 rewrites it to
`Path("r2/trial_0007")`. -/
theorem claim_C6_cex :
    t6.sample c6 = .ok (.vpath (kOf "r2")) ∧
    suggest_config t6 b6 u6
      = ([c6], .ok (.cons (kOf "out_dir") (.leaf (.vpath (kOf "r2/trial_0007"))) .nil)) ∧
    dget (to_flat_dict (.cons (kOf "out_dir")
        (.leaf (.vpath (kOf "r2/trial_0007"))) .nil)) (kOf "out_dir")
      = some (.vpath (kOf "r2/trial_0007")) ∧
    Val.vpath (kOf "r2/trial_0007") ≠ .vpath (kOf "r2") := by decide
